import Mathlib

/-!
Verification of the robin XML/HTML parser and XPath 1.0 engine.

This file gives a shallow embedding, in Lean 4, of the parts of the
source (src/parser.ts, src/tokens.ts, src/nodes.ts) that the claims
C1 - C10 are about, and settles each claim against that embedding.

Conventions used throughout:
- JavaScript IEEE-754 numbers are embedded as the type XNum below
  (NaN, the two infinities, and finite values represented exactly as
  rationals; all arithmetic appearing in the claims is exact at these
  magnitudes, so no rounding error is lost).
- JavaScript strings are embedded as Lean String or List Char
  (all strings involved are ASCII, so code units and characters agree).
- A JS Set is embedded as a duplicate-free List in insertion order;
  building a Set from a list is dedupKeepFirst below.
- Mutable tree nodes are embedded either as paths (List Nat) into an
  immutable rose tree (for the XPath axis/evaluator claims) or as an
  arena of records indexed by allocation order (for the parse-time
  parent/index invariant claim).
-/

/-! ## Generic list helpers (used by several embeddings) -/

/-- Index of the first occurrence of an element in a list (0 when absent
past the end).  Used to realise document-order positions. -/
def idxOf {α : Type} [DecidableEq α] (a : α) : List α → Nat
  | [] => 0
  | b :: l => if b = a then 0 else idxOf a l + 1

/-- JS Set insertion loop: add each element of the list unless already
seen. -/
def dedupSeen {α : Type} [DecidableEq α] (seen : List α) :
    List α → List α
  | [] => []
  | a :: l =>
      if a ∈ seen then dedupSeen seen l else a :: dedupSeen (a :: seen) l

/-- JS Set construction from a list: keep the first occurrence of each
element, drop later duplicates. -/
def dedupKeepFirst {α : Type} [DecidableEq α] (l : List α) : List α :=
  dedupSeen [] l

/-! ## XNum: the JS number values the claims need -/

/-- A JavaScript number as used by the evaluator: NaN, the infinities,
or a finite value (represented exactly). -/
inductive XNum where
  | nan
  | posInf
  | negInf
  | fin (q : ℚ)
deriving DecidableEq, Repr

/-- JS Number.isNaN. -/
def XNum.isNaNx : XNum → Bool
  | .nan => true
  | _ => false

/-- JS Math.round: round half toward positive infinity,
Math.round x = floor (x + 1/2); infinities and NaN pass through. -/
def XNum.jsRound : XNum → XNum
  | .nan => .nan
  | .posInf => .posInf
  | .negInf => .negInf
  | .fin q => .fin ((⌊q + 1/2⌋ : ℤ) : ℚ)

/-- JS addition (as used for end += start in substringFn). -/
def XNum.add : XNum → XNum → XNum
  | .nan, _ => .nan
  | _, .nan => .nan
  | .posInf, .negInf => .nan
  | .negInf, .posInf => .nan
  | .posInf, _ => .posInf
  | _, .posInf => .posInf
  | .negInf, _ => .negInf
  | _, .negInf => .negInf
  | .fin a, .fin b => .fin (a + b)

/-- JS subtraction by one (start-- in substringFn). -/
def XNum.subOne : XNum → XNum
  | .nan => .nan
  | .posInf => .posInf
  | .negInf => .negInf
  | .fin q => .fin (q - 1)

/-- JS comparison x >= 0 (false for NaN). -/
def XNum.geZero : XNum → Bool
  | .nan => false
  | .posInf => true
  | .negInf => false
  | .fin q => decide (0 ≤ q)

/-- The OpDiv branch of XPath.evaluateArithmeticExpr (tokens.ts):
NaN when either operand is NaN, otherwise JS division (division of a
nonzero finite value by zero gives a signed infinity, 0/0 gives NaN). -/
def XNum.divOp : XNum → XNum → XNum
  | .nan, _ => .nan
  | _, .nan => .nan
  | .posInf, .posInf => .nan
  | .posInf, .negInf => .nan
  | .negInf, .posInf => .nan
  | .negInf, .negInf => .nan
  | .posInf, .fin b => if 0 ≤ b then .posInf else .negInf
  | .negInf, .fin b => if 0 ≤ b then .negInf else .posInf
  | .fin _, .posInf => .fin 0
  | .fin _, .negInf => .fin 0
  | .fin a, .fin b =>
      if b = 0 then
        if a = 0 then .nan else if 0 < a then .posInf else .negInf
      else .fin (a / b)

/-- JS truncation toward zero of a rational (ToIntegerOrInfinity on a
finite value). -/
def ratTrunc (q : ℚ) : ℤ :=
  if 0 ≤ q then ⌊q⌋ else ⌈q⌉

/-- Normalisation of one String.prototype.slice index against a string
of length L: NaN becomes 0, -inf becomes 0, +inf becomes L, a finite
value is truncated and then a negative value counts from the end
(clamped at 0) while a non-negative one is clamped at L. -/
def normSliceIdx (L : Nat) : XNum → Nat
  | .nan => 0
  | .negInf => 0
  | .posInf => L
  | .fin q =>
      let i : ℤ := ratTrunc q
      if i < 0 then ((L : ℤ) + i).toNat else min i.toNat L

/-- JS String.prototype.slice with two arguments, on a character list. -/
def jsSlice (s : List Char) (a b : XNum) : List Char :=
  (s.take (normSliceIdx s.length b)).drop (normSliceIdx s.length a)

/-- JS String.prototype.slice with one argument. -/
def jsSliceFrom (s : List Char) (a : XNum) : List Char :=
  s.drop (normSliceIdx s.length a)

/-! ## substringFn (tokens.ts, the substring core function) -/

/-- The body of substringFn after its two numeric arguments have been
rounded (in the source, each argument is rounded by Math.round right
where it is popped; the remaining computation is this tail): bail out
on a NaN start, shift to 0-based, bail out on a NaN length, add length
to start, clamp negatives to 0, and slice. -/
def substringTail (s : List Char) (startR : XNum) (lenR : Option XNum) :
    List Char :=
  if startR.isNaNx then [] else
  let start := startR.subOne
  match lenR with
  | none =>
      let start2 := if start.geZero then start else .fin 0
      jsSliceFrom s start2
  | some e0 =>
      if e0.isNaNx then [] else
      let e := e0.add start
      let start2 := if start.geZero then start else .fin 0
      let e2 := if e.geZero then e else .fin 0
      jsSlice s start2 e2

/-- Embedding of substringFn (tokens.ts 3350-3395): the XPath
substring(string, number, number?) core function.  The string argument
has already been coerced to a string and the numeric arguments to
numbers by the surrounding evaluator; both numeric arguments go
through JS Math.round. -/
def substringFn (s : List Char) (startArg : XNum) (lenArg : Option XNum) :
    List Char :=
  substringTail s startArg.jsRound (lenArg.map XNum.jsRound)

/-- Round-half-to-even on XNum, following the words of the spec
sentence for C4 ("round half-to-even for start/length"); used only to
compare the claimed behaviour with the behaviour of the source, which
uses JS Math.round (half toward positive infinity). -/
def roundHalfToEven : XNum → XNum
  | .nan => .nan
  | .posInf => .posInf
  | .negInf => .negInf
  | .fin q =>
      if 2 * q = 2 * (⌊q⌋ : ℚ) + 1 then
        if (⌊q⌋ : ℤ) % 2 = 0 then .fin ((⌊q⌋ : ℤ) : ℚ)
        else .fin ((⌊q⌋ + 1 : ℤ) : ℚ)
      else .fin ((⌊q + 1/2⌋ : ℤ) : ℚ)

/-- The substring function as the C4 claim describes it: identical to
substringFn except that start and length are rounded half-to-even.
Follows the spec words, for comparison with substringFn. -/
def substringHalfToEven (s : List Char) (startArg : XNum)
    (lenArg : Option XNum) : List Char :=
  substringTail s (roundHalfToEven startArg) (lenArg.map roundHalfToEven)

/-! ## XPath data values, queryOne, countFn, sumFn -/

/-- A tree node as seen by the count/sum core functions: all they use
of a node is its numberValue().  The identity of the node is kept as a
natural number id so that node sets are sets of identities. -/
structure NodeV where
  nid : Nat
  nval : XNum
deriving DecidableEq, Repr

/-- XDataCType (tokens.ts): a query evaluates to a number, a string, a
boolean, or a node-set.  A node-set is a JS Set kept in insertion
order. -/
inductive XValue where
  | num (x : XNum)
  | str (s : String)
  | bl (b : Bool)
  | nset (l : List NodeV)
deriving DecidableEq, Repr

/-- XReturnType (tokens.ts): what queryOne / queryAll hand back, a
scalar or a single node. -/
inductive XReturn where
  | rnum (x : XNum)
  | rstr (s : String)
  | rbool (b : Bool)
  | rnode (n : NodeV)
deriving DecidableEq, Repr

/-- Embedding of XPath.queryOne (tokens.ts 4138-4145): evaluate the
query (its value is the argument here), then: a Set answer yields null
for an empty set and the first member otherwise, any other answer is
returned unchanged.  Null is embedded as none. -/
def queryOne (v : XValue) : Option XReturn :=
  match v with
  | .nset [] => none
  | .nset (x :: _) => some (.rnode x)
  | .num x => some (.rnum x)
  | .str s => some (.rstr s)
  | .bl b => some (.rbool b)

/-- Whether an XValue is a node-set (XDataEval.isNodeset). -/
def XValue.isNset : XValue → Bool
  | .nset _ => true
  | _ => false

/-- EvalError kinds raised by the embedded core functions. -/
inductive EvalErr where
  | typeExpected
deriving DecidableEq, Repr

/-- The summation loop of sumFn: sum += n.numberValue(), breaking out
as soon as the accumulator is NaN. -/
def sumLoop : XNum → List NodeV → XNum
  | acc, [] => acc
  | acc, n :: rest =>
      let acc2 := acc.add n.nval
      if acc2.isNaNx then acc2 else sumLoop acc2 rest

/-- Embedding of countFn (tokens.ts 3011-3023): count(node-set).  A
non-node-set argument silently yields NaN; a node-set yields its
size. -/
def countFn (d : XValue) : Except EvalErr XValue :=
  match d with
  | .nset l => .ok (.num (.fin l.length))
  | _ => .ok (.num .nan)

/-- Embedding of sumFn (tokens.ts 3184-3204): sum(node-set).  A
non-node-set argument raises an EvalError; a node-set is summed with
NaN short-circuit. -/
def sumFn (d : XValue) : Except EvalErr XValue :=
  match d with
  | .nset l => .ok (.num (sumLoop (.fin 0) l))
  | _ => .error .typeExpected

/-! ## JS string trim -/

/-- JS String.prototype.trim, realised structurally on the character
list so that witnesses evaluate inside the kernel: strip leading and
trailing whitespace. -/
def jsTrim (s : String) : String :=
  ⟨((s.data.dropWhile Char.isWhitespace).reverse.dropWhile
      Char.isWhitespace).reverse⟩

/-! ## Parse warnings and the isWellFormed flag (parser.ts) -/

/-- The reserved prefix string checked by parseName;
constants.XmlPrefix = "xml" (the module src/constants.ts is not part
of src/, the value is fixed by the spec, section 6.3). -/
def xmlPfx : String := "xml"

/-- Number of warnings issued by XmlParser.parseName (parser.ts
302-321) for a qualified name with prefix pn and local part ln: one
when the prefix is reserved-looking (longer than "xml", not "xmlns",
case-insensitively starting with "xml"), and one when the name is
prefixed and the local part is reserved-looking. -/
def parseNameWarnCount (pn ln : String) : Nat :=
  (if pn ≠ "" ∧ pn ≠ "xmlns" ∧ pn.length > xmlPfx.length ∧
      pn.toLower.startsWith xmlPfx then 1 else 0) +
  (if pn ≠ "" ∧ ln.length > xmlPfx.length ∧
      ln.toLower.startsWith xmlPfx then 1 else 0)

/-- Number of warnings issued by XmlParser.parseText (parser.ts
646-651): one when non-whitespace text appears where only whitespace
is expected. -/
def parseTextWarnCount (expectsWhitespaceOnly : Bool) (value : String) :
    Nat :=
  if expectsWhitespaceOnly ∧ jsTrim value ≠ "" then 1 else 0

/-- A place in a parse where XmlParser.warn may fire.  warn (parser.ts
97-122) increments the warnings counter unconditionally (showWarnings
only controls printing) and returns normally, so a warn site never
aborts the parse. -/
inductive WarnSite where
  | nameSite (pn ln : String)
  | textSite (expectsWS : Bool) (value : String)
deriving Repr

/-- Warnings contributed by one warn site. -/
def siteWarnCount : WarnSite → Nat
  | .nameSite pn ln => parseNameWarnCount pn ln
  | .textSite ws v => parseTextWarnCount ws v

/-- The warnings counter after a completed parse: each warn site adds
its warnings; nothing ever resets the counter. -/
def totalWarnings (sites : List WarnSite) : Nat :=
  (sites.map siteWarnCount).sum

/-- The last line of XmlParser.parseDocument (parser.ts 717):
rootNode.isWellFormed = !this.warnings. -/
def isWellFormedFlag (sites : List WarnSite) : Bool :=
  totalWarnings sites == 0

/-! ## Namespace resolution of attributes (parser.ts resolveNamespaces) -/

/-- The fields of a NamespaceNode that attribute resolution uses. -/
structure NsNode where
  pfx : String
  uri : String
deriving DecidableEq, Repr

/-- The name of a deferred namespaced attribute: its prefix and local
part (parseAttribute pushes an attribute onto namespacedAttributes
exactly when its name has a prefix). -/
structure AttrName where
  pfx : String
  lname : String
deriving DecidableEq, Repr

/-- ParseError kinds raised inside the attribute resolution loop. -/
inductive NsResolveErr where
  | unresolved
  | duplicateExpanded
deriving DecidableEq, Repr

/-- The expanded name of a namespaced attribute (parser.ts 269):
namespace uri (trimmed) plus ":" plus local name. -/
def expandedName (uri lname : String) : String :=
  jsTrim uri ++ ":" ++ lname

/-- Embedding of the attribute half of XmlParser.resolveNamespaces
(parser.ts 253-282) with allowMissingNamespaces off: walk the deferred
namespaced attributes in order, resolve each prefix through the scope
chain (the lookup argument), and — when ensureUniqueNamespacedAttributes
is on — record each expanded name, failing on one already seen.
The uniqueNames map is the seen accumulator. -/
def resolveAttrLoop (lookup : String → Option NsNode) (ensure : Bool) :
    List AttrName → List String → Except NsResolveErr Unit
  | [], _ => .ok ()
  | a :: rest, seen =>
    match lookup a.pfx with
    | none => .error .unresolved
    | some ns =>
      if ensure then
        let en := expandedName ns.uri a.lname
        if en ∈ seen then .error .duplicateExpanded
        else resolveAttrLoop lookup ensure rest (en :: seen)
      else resolveAttrLoop lookup ensure rest seen

/-- The expanded name an attribute resolves to under a scope (empty
when the prefix does not resolve; under the hypotheses of the C5
theorem every prefix resolves). -/
def expandedOf (lookup : String → Option NsNode) (a : AttrName) :
    String :=
  match lookup a.pfx with
  | some ns => expandedName ns.uri a.lname
  | none => ""

/-- The scope of the C5 example element
r xmlns:p="urn:x" xmlns:q="urn:x": both p and q bound to urn:x. -/
def exLookupC5 : String → Option NsNode := fun p =>
  if p = "p" then some ⟨"p", "urn:x"⟩
  else if p = "q" then some ⟨"q", "urn:x"⟩
  else none

/-- The deferred namespaced attributes of the C5 example element:
p:a="1" q:a="2". -/
def exAttrsC5 : List AttrName := [⟨"p", "a"⟩, ⟨"q", "a"⟩]

/-! ## Reserved namespace constraints (parser.ts parseNamespace) -/

/-- The XML namespace URI (spec section 6.3; src/constants.ts is not
under src/). -/
def xmlUriS : String := "http://www.w3.org/XML/1998/namespace"

/-- The XMLNS namespace URI (spec section 6.3). -/
def xmlnsUriS : String := "http://www.w3.org/2000/xmlns/"

/-- The error raised by XmlParser.parseNamespace, by constraint. -/
inductive NsDeclErr where
  | xmlBoundElsewhere
  | xmlUriAsDefault
  | xmlUriOtherPfx
  | xmlnsDeclared
  | xmlnsUriAsDefault
  | xmlnsUriOtherPfx
  | emptyValue
deriving DecidableEq, Repr

/-- A namespace declaration as parseNamespace sees it: none stands
for a default declaration xmlns="uri", some p for a prefixed
declaration xmlns:p="uri" (parseNamespace is entered only on names
whose first token is xmlns, so the parsed RName has lname = "xmlns"
and pname = "" in the default case, and lname = p and pname = "xmlns"
in the prefixed case). -/
def nsDeclLname (decl : Option String) : String :=
  match decl with
  | none => "xmlns"
  | some p => p

/-- Embedding of the constraint checks of XmlParser.parseNamespace
(parser.ts 405-505), in source order: the xml-prefix block
(constraint 1a), the xmlns-prefix block (constraints 1b-c), and the
no-empty-value check (constraint 3).  The value is trimmed first, as
in the source.  Returns the first error raised, none when the
declaration is accepted. -/
def checkNsDecl (decl : Option String) (uriRaw : String) :
    Option NsDeclErr :=
  let uri := jsTrim uriRaw
  let lname := nsDeclLname decl
  let isPrefixed := decl.isSome
  let block1 : Option NsDeclErr :=
    if lname = xmlPfx then
      if uri ≠ xmlUriS then some .xmlBoundElsewhere else none
    else if ¬ isPrefixed then
      if uri = xmlUriS then some .xmlUriAsDefault else none
    else if uri = xmlUriS then some .xmlUriOtherPfx else none
  match block1 with
  | some e => some e
  | none =>
    let block2 : Option NsDeclErr :=
      if lname = "xmlns" ∧ isPrefixed then some .xmlnsDeclared
      else if ¬ isPrefixed then
        if uri = xmlnsUriS then some .xmlnsUriAsDefault else none
      else if uri = xmlnsUriS then some .xmlnsUriOtherPfx else none
    match block2 with
    | some e => some e
    | none => if lname ≠ "" ∧ uri = "" then some .emptyValue else none

/-- The element-name check of XmlParser.parseName (parser.ts
322-328): an element name whose prefix is xmlns is rejected
(constraint 1d). -/
def elementNameRejected (pn : String) : Bool :=
  pn = "xmlns"

/-- The set of namespace declarations the code actually rejects
(stated extensionally, for the amended C6): the three xml rules, the
three xmlns rules — including a prefix other than xmlns bound to the
XMLNS URI — and any declaration whose trimmed value is empty. -/
def nsDeclViolation (decl : Option String) (uriRaw : String) : Prop :=
  let uri := jsTrim uriRaw
  (decl = some xmlPfx ∧ uri ≠ xmlUriS) ∨
  (decl = none ∧ uri = xmlUriS) ∨
  ((∃ p, decl = some p ∧ p ≠ xmlPfx) ∧ uri = xmlUriS) ∨
  (decl = some "xmlns") ∨
  (decl = none ∧ uri = xmlnsUriS) ∨
  ((∃ p, decl = some p ∧ p ≠ "xmlns") ∧ uri = xmlnsUriS) ∨
  (nsDeclLname decl ≠ "" ∧ uri = "")

/-- The set of namespace declarations the C6 claim says are rejected,
following the claim words: (a) the xml rules, (b) xmlns declared or
XMLNS URI as a default namespace, (c) a prefixed declaration with an
empty value.  (Clause (d) concerns element names, not declarations.)
Written from the claim, for comparison with checkNsDecl. -/
def claimedNsDeclViolation (decl : Option String) (uriRaw : String) :
    Prop :=
  let uri := jsTrim uriRaw
  (decl = some xmlPfx ∧ uri ≠ xmlUriS) ∨
  (decl = none ∧ uri = xmlUriS) ∨
  ((∃ p, decl = some p ∧ p ≠ xmlPfx) ∧ uri = xmlUriS) ∨
  (decl = some "xmlns") ∨
  (decl = none ∧ uri = xmlnsUriS) ∨
  ((∃ p, decl = some p) ∧ uri = "")

/-! ## Parse-time tree building (parser.ts setParent and friends)

The parser's heap of mutable nodes is embedded as an arena: a list of
node records, a node's id being its allocation position.  JS NaN and
undefined indices are both embedded as none. -/

/-- The nine node kinds (nodes.ts RNodeType). -/
inductive BKind where
  | rootB
  | elemB
  | textB
  | commentB
  | piB
  | attrB
  | nsB
  | dtdB
  | xmlDeclB
deriving DecidableEq, Repr

/-- The fields of a node record that the parent/index invariant is
about: kind, back-link to the parent, index within the parent's
children (none embeds NaN/undefined), and the children id sequence. -/
structure BNode where
  kind : BKind
  parentId : Option Nat
  childIdx : Option Nat
  kids : List Nat
deriving DecidableEq, Repr

/-- The three ways the parser links a new node to the tree:
- insertChild embeds XmlParser.setParent (parser.ts 208-212):
  node.index = parent.children.push(node) - 1; node.parent = parent —
  used for elements, texts, comments and PIs in both modes;
- attach embeds the creation of attribute, namespace, DTD and XMLDecl
  nodes (parser.ts parseAttribute / parseNamespace / parseDoctype /
  parseXmlDecl): node.parent is set but the node is never pushed onto
  parent.children and its index stays NaN;
- scriptText embeds the HTML script synthetic text child
  (parser.ts 790-795): child.parent = node; node.children.push(child)
  — pushed onto children but its index is never assigned. -/
inductive BuildOp where
  | insertChild (pid : Nat) (k : BKind)
  | attach (pid : Nat) (k : BKind)
  | scriptText (pid : Nat)
deriving DecidableEq, Repr

/-- Append a child id to the kids of the node with id pid. -/
def appendKidAt : List BNode → Nat → Nat → List BNode
  | [], _, _ => []
  | n :: rest, 0, cid => { n with kids := n.kids ++ [cid] } :: rest
  | n :: rest, p + 1, cid => n :: appendKidAt rest p cid

/-- Apply one build operation to the arena.  An operation naming a
nonexistent parent is a no-op (the parser only ever links to nodes on
its open-parents stack, which exist). -/
def applyOp (a : List BNode) : BuildOp → List BNode
  | .insertChild pid k =>
      if h : pid < a.length then
        let idx := (a.get ⟨pid, h⟩).kids.length
        appendKidAt a pid a.length ++ [⟨k, some pid, some idx, []⟩]
      else a
  | .attach pid k =>
      if pid < a.length then a ++ [⟨k, some pid, none, []⟩] else a
  | .scriptText pid =>
      if pid < a.length then
        appendKidAt a pid a.length ++ [⟨.textB, some pid, none, []⟩]
      else a

/-- The arena at the start of a parse: the synthetic root alone
(XmlParser.createRoot). -/
def initArena : List BNode := [⟨.rootB, none, none, []⟩]

/-- The arena after a parse described by a sequence of build
operations. -/
def buildArena (ops : List BuildOp) : List BNode :=
  ops.foldl applyOp initArena

/-- The property the C8 claim asserts of one non-root node i:
n.parent.children[n.index] == n. -/
@[reducible] def childLinkedAt (a : List BNode) (i : Nat) : Prop :=
  ∀ n : BNode, a[i]? = some n → n.parentId ≠ none →
    ∃ (pid : Nat) (p : BNode) (j : Nat),
      n.parentId = some pid ∧ a[pid]? = some p ∧
      n.childIdx = some j ∧ p.kids[j]? = some i

/-- The build script of parsing the document with one element and one
attribute on it (the parse of a markup like that of an element a with
attribute b): the element under the root, then the attribute attached
to the element. -/
def c8ExampleOps : List BuildOp :=
  [.insertChild 0 .elemB, .attach 1 .attrB]

/-! ## The document tree for the XPath axis and evaluator claims

The children hierarchy of a parsed document (root, elements, texts,
comments, PIs — attributes and namespaces are not children and none of
the queries of claims C1-C3 touches them) is embedded as a rose tree;
a node of the document is a path (List Nat) of child indices from the
root, the root being [].  Document-order positions are the preorder
ranks of paths, matching the source's pos counter, which is assigned
in preorder at parse time (restricted to the children hierarchy,
attribute positions only shift the later positions and never reorder
two children-hierarchy nodes). -/

/-- Node kinds of the children hierarchy. -/
inductive NKind where
  | rootK
  | elemK
  | textK
  | commentK
  | piK
deriving DecidableEq, Repr

mutual
/-- A node: kind, qualified name (elements; empty otherwise), and
children in document order. -/
inductive RTree where
  | node (kind : NKind) (name : String) (children : RForest)
deriving DecidableEq, Repr
/-- A children sequence. -/
inductive RForest where
  | nil
  | cons (hd : RTree) (tl : RForest)
deriving DecidableEq, Repr
end

def RTree.kindOf : RTree → NKind
  | .node k _ _ => k

def RTree.nameOf : RTree → String
  | .node _ nm _ => nm

def RTree.childrenOf : RTree → RForest
  | .node _ _ cs => cs

/-- Child at an index. -/
def RForest.get? : RForest → Nat → Option RTree
  | .nil, _ => none
  | .cons c _, 0 => some c
  | .cons _ rest, j + 1 => rest.get? j

def RForest.isNil : RForest → Bool
  | .nil => true
  | _ => false

/-- nodes.isParent: root and element nodes are the ones that carry
children. -/
def isParentKind : NKind → Bool
  | .rootK => true
  | .elemK => true
  | _ => false

mutual
/-- Well-formedness of the embedding: only parent-kind nodes carry
children (true of every parsed document). -/
def wfT : RTree → Bool
  | .node k _ cs => (isParentKind k || cs.isNil) && wfF cs
def wfF : RForest → Bool
  | .nil => true
  | .cons c rest => wfT c && wfF rest
end

/-- The subtree at a path. -/
def subT : RTree → List Nat → Option RTree
  | t, [] => some t
  | t, j :: r =>
    match t.childrenOf.get? j with
    | some c => subT c r
    | none => none

/-- The subtree at a forest position (child index plus relative
path). -/
def subF (f : RForest) (j : Nat) (r : List Nat) : Option RTree :=
  match f.get? j with
  | some c => subT c r
  | none => none

/-- Whether a path denotes a node of the tree. -/
def validP (t : RTree) (p : List Nat) : Bool :=
  (subT t p).isSome

/-- Whether the node at a path exists and passes a test. -/
def testAt (t : RTree) (test : RTree → Bool) (q : List Nat) : Bool :=
  match subT t q with
  | some u => test u
  | none => false

mutual
/-- Preorder listing of the paths of a subtree rooted at path p. -/
def preT : RTree → List Nat → List (List Nat)
  | .node _ _ cs, p => p :: preF cs p 0
def preF : RForest → List Nat → Nat → List (List Nat)
  | .nil, _, _ => []
  | .cons c rest, p, i => preT c (p ++ [i]) ++ preF rest p (i + 1)
end

/-- All paths of the document, in document (preorder) order. -/
def allPaths (t : RTree) : List (List Nat) :=
  preT t []

/-- The document-order position of a node: its preorder rank.  This
realises RNode.position(), the counter assigned in preorder at parse
time. -/
def posOf (t : RTree) (p : List Nat) : Nat :=
  idxOf p (allPaths t)

/-- Insertion into a position-sorted list. -/
def insByPos (t : RTree) (x : List Nat) : List (List Nat) → List (List Nat)
  | [] => [x]
  | y :: ys =>
      if posOf t x ≤ posOf t y then x :: y :: ys else y :: insByPos t x ys

/-- Sorting a node list into ascending document order: realises
XPath.sortNodeset / reorderNodesetArrayInPlace (forward), which sort
by position(). -/
def sortByPos (t : RTree) : List (List Nat) → List (List Nat)
  | [] => []
  | x :: xs => insByPos t x (sortByPos t xs)

mutual
/-- Embedding of PathState.findDescendants (tokens.ts 1337-1353):
collect every descendant passing the test, in preorder; only
parent-kind nodes are descended into. -/
def findDescT (test : RTree → Bool) : RTree → List Nat → List (List Nat)
  | .node k _ cs, p =>
      if isParentKind k then findDescF test cs p 0 else []
def findDescF (test : RTree → Bool) :
    RForest → List Nat → Nat → List (List Nat)
  | .nil, _, _ => []
  | .cons c rest, p, i =>
      (if test c then [p ++ [i]] else []) ++ findDescT test c (p ++ [i]) ++
        findDescF test rest p (i + 1)
end

/-- Embedding of PathState.traverseAllLinear's loop: the children
passing the test, in order. -/
def tlF (test : RTree → Bool) : RForest → List Nat → Nat → List (List Nat)
  | .nil, _, _ => []
  | .cons c rest, p, i =>
      (if test c then [p ++ [i]] else []) ++ tlF test rest p (i + 1)

/-- The parent-chain iteration of findAncestors, driven by a fuel
counter equal to the depth of the starting node (each step drops the
last path component, so the depth bounds the iteration count). -/
def ancAux : Nat → List Nat → List (List Nat)
  | _, [] => []
  | 0, _ :: _ => []
  | fuel + 1, q :: qs =>
      (q :: qs).dropLast :: ancAux fuel ((q :: qs).dropLast)

/-- Embedding of PathState.findAncestors (tokens.ts 1323-1335): the
chain from the parent up to and including the root.  (With the node()
kind test the filter accepts every node.) -/
def ancestorPaths (p : List Nat) : List (List Nat) :=
  ancAux p.length p

/-- The inner for-loop of findFollowing: scan the children of the node
at pp from child index i upward; each scanned child is tested and its
descendants collected. -/
def scanFw (test : RTree → Bool) : RForest → List Nat → Nat → Nat →
    List (List Nat)
  | .nil, _, _, _ => []
  | .cons c rest, p, j, i =>
      if j < i then scanFw test rest p (j + 1) i
      else
        (if test c then [p ++ [j]] else []) ++ findDescT test c (p ++ [j]) ++
          scanFw test rest p (j + 1) i

def scanFromIdx (t : RTree) (test : RTree → Bool) (pp : List Nat)
    (i : Nat) : List (List Nat) :=
  match subT t pp with
  | some u => scanFw test u.childrenOf pp 0 i
  | none => []

/-- The blocks of the inner for-loop of findPreceding, for child
indices 0..i in ascending order; the loop itself runs them in
descending order (see scanDownIdx). -/
def blocksUp (test : RTree → Bool) : RForest → List Nat → Nat → Nat →
    List (List (List Nat))
  | .nil, _, _, _ => []
  | .cons c rest, p, j, i =>
      if i < j then []
      else
        ((if test c then [p ++ [j]] else []) ++
            findDescT test c (p ++ [j])) ::
          blocksUp test rest p (j + 1) i

def scanDownIdx (t : RTree) (test : RTree → Bool) (pp : List Nat)
    (i : Nat) : List (List Nat) :=
  match subT t pp with
  | some u => ((blocksUp test u.childrenOf pp 0 i).reverse).flatten
  | none => []

/-- The do-while loop of PathState.findFollowing (tokens.ts
1392-1422), driven by a fuel counter equal to the depth of the
starting parent (each climb shortens the parent path): scan the
current level from index upward, then climb — but (as in the source)
the loop exits as soon as the parent just climbed to is the root, so
the root's own level is scanned only when the starting parent already
was the root. -/
def followLoopA (t : RTree) (test : RTree → Bool) :
    Nat → List Nat → Nat → List (List Nat)
  | _, [], index => scanFromIdx t test [] index
  | 0, q :: qs, index => scanFromIdx t test (q :: qs) index
  | fuel + 1, q :: qs, index =>
    scanFromIdx t test (q :: qs) index ++
      (if (q :: qs).dropLast = [] then []
       else
         followLoopA t test fuel ((q :: qs).dropLast)
           ((q :: qs).getLast! + 1))

def followLoop (t : RTree) (test : RTree → Bool) (parent : List Nat)
    (index : Nat) : List (List Nat) :=
  followLoopA t test parent.length parent index

/-- Embedding of PathState.findFollowing for a children-hierarchy
context node (attributes and namespaces excepted, as in the claim). -/
def findFollowingPaths (t : RTree) (test : RTree → Bool)
    (p : List Nat) : List (List Nat) :=
  match p with
  | [] => []
  | q :: qs => followLoop t test ((q :: qs).dropLast) ((q :: qs).getLast! + 1)

/-- The do-while loop of PathState.findPreceding (tokens.ts
1424-1454), driven by a fuel counter equal to the depth of the
starting parent: scan the current level from index downward, then
climb; the loop returns early when the climbed-to index is negative
and exits when the parent just climbed to is the root. -/
def precLoopA (t : RTree) (test : RTree → Bool) :
    Nat → List Nat → Int → List (List Nat)
  | _, [], index => scanDownIdx t test [] index.toNat
  | 0, q :: qs, index => scanDownIdx t test (q :: qs) index.toNat
  | fuel + 1, q :: qs, index =>
    scanDownIdx t test (q :: qs) index.toNat ++
      (if ((q :: qs).getLast! : Int) - 1 < 0 then []
       else if (q :: qs).dropLast = [] then []
       else
         precLoopA t test fuel ((q :: qs).dropLast)
           (((q :: qs).getLast! : Int) - 1))

def precLoop (t : RTree) (test : RTree → Bool) (parent : List Nat)
    (index : Int) : List (List Nat) :=
  precLoopA t test parent.length parent index

/-- Embedding of PathState.findPreceding for a children-hierarchy
context node: returns immediately when the context node has no
preceding sibling (index < 0), as in the source. -/
def findPrecedingPaths (t : RTree) (test : RTree → Bool)
    (p : List Nat) : List (List Nat) :=
  match p with
  | [] => []
  | q :: qs =>
      if ((q :: qs).getLast! : Int) - 1 < 0 then []
      else
        precLoop t test ((q :: qs).dropLast)
          (((q :: qs).getLast! : Int) - 1)

/-! ## The five axis queries of C2, with the node() kind test
(isKindTestPassed with KindTestType.Node accepts every node) -/

/-- self::node() with context p (s0SelfKindTest). -/
def axisSelfSet (p : List Nat) : List (List Nat) := [p]

/-- ancestor::node() with context p (s0AncestorKindTest). -/
def axisAncestorSet (p : List Nat) : List (List Nat) := ancestorPaths p

/-- descendant::node() with context p (s0DescendantKindTest). -/
def axisDescendantSet (t : RTree) (p : List Nat) : List (List Nat) :=
  match subT t p with
  | some u => findDescT (fun _ => true) u p
  | none => []

/-- following::node() with context p (s0FollowingKindTest). -/
def axisFollowingSet (t : RTree) (p : List Nat) : List (List Nat) :=
  findFollowingPaths t (fun _ => true) p

/-- preceding::node() with context p (s0PrecedingKindTest). -/
def axisPrecedingSet (t : RTree) (p : List Nat) : List (List Nat) :=
  findPrecedingPaths t (fun _ => true) p

/-- The C2 failing document: markup of the shape of a root element a
holding an empty element x followed by an element y holding an element
b.  The context node of the counterexample is b = path [0, 1, 0]; the
lost node is x = path [0, 0]. -/
def treeC2 : RTree :=
  .node .rootK "Document"
    (.cons
      (.node .elemK "a"
        (.cons (.node .elemK "x" .nil)
          (.cons (.node .elemK "y"
            (.cons (.node .elemK "b" .nil) .nil)) .nil)))
      .nil)

/-! ## The evaluator pipeline for the C1 and C3 queries

The query //X parses (after transformStepNode's expansion of //) into
the two steps /descendant-or-self::node() and /child::X; a trailing
predicate [1] stays on the child step.  The fragments of
XPath.visitStepNode, PathState.s1DescendantOrSelfKindTest,
PathState.s1ChildNameTest and XPath.visitPredicateNode that those
queries exercise are embedded below. -/

/-- isElement (the element test of a name test). -/
def isElemT (u : RTree) : Bool :=
  match u.kindOf with
  | .elemK => true
  | _ => false

/-- The name test X on the child axis: an element whose qualified name
equals X (isNameTestPassed with NameTestType.Name). -/
def elemNamedTest (X : String) (u : RTree) : Bool :=
  isElemT u && decide (u.nameOf = X)

/-- The first step of //X and //*: s1DescendantOrSelfKindTest with the
node() test on an empty incoming node-set adds the root and every
descendant, and visitStepNode (no predicates on this step) flattens
and sorts the single partition into one set in document order. -/
def dosStepResult (t : RTree) : List (List Nat) :=
  dedupKeepFirst (sortByPos t ([] :: findDescT (fun _ => true) t []))

/-- The children of the node at p passing a test (the partition that
s1ChildNameTest builds for one member of the incoming node-set). -/
def xChildrenPaths (t : RTree) (test : RTree → Bool) (p : List Nat) :
    List (List Nat) :=
  match subT t p with
  | some u => tlF test u.childrenOf p 0
  | none => []

/-- s1ChildNameTest over a non-empty incoming node-set: one partition
per parent-kind member of the incoming set, empty partitions dropped
by addNodeset. -/
def childStep (test : RTree → Bool) (t : RTree)
    (inSet : List (List Nat)) : List (List (List Nat)) :=
  inSet.filterMap (fun p =>
    match subT t p with
    | none => none
    | some u =>
        if isParentKind u.kindOf then
          if (tlF test u.childrenOf p 0).isEmpty then none
          else some (tlF test u.childrenOf p 0)
        else none)

/-- A child step with no predicates: visitStepNode flattens the
partitions into one node-set sorted in document order (the value of
//X or //* as a whole). -/
def evalNoPredChildStep (test : RTree → Bool) (t : RTree) :
    List (List Nat) :=
  dedupKeepFirst
    (sortByPos t ((childStep test t (dosStepResult t)).flatten))

/-- visitPredicateNode for the predicate [1]: reorder each partition
into forward document order, keep the node at context position 1 (a
Number predicate holds iff it equals the position) of each partition,
and sort the collected nodes into document order. -/
def predFirst (t : RTree) (parts : List (List (List Nat))) :
    List (List Nat) :=
  dedupKeepFirst
    (sortByPos t
      (parts.filterMap
        (fun part => (dedupKeepFirst (sortByPos t part)).head?)))

/-- The value of //X[1]: partitions per parent, then the predicate. -/
def evalDslashXPred1 (t : RTree) (X : String) : List (List Nat) :=
  predFirst t (childStep (elemNamedTest X) t (dosStepResult t))

/-- The value of (//X)[1]: the parenthesised //X is evaluated as a
whole (one flattened sorted node-set, no partition array), so the
predicate receives the single partition [that set]
(visitPredicateNode's leftExpr branch). -/
def evalParenDslashX1 (t : RTree) (X : String) : List (List Nat) :=
  predFirst t [evalNoPredChildStep (elemNamedTest X) t]

/-- The node-set of //* (count(//*) is its size; countFn returns the
set size on a node-set). -/
def evalAllElemsQ (t : RTree) : List (List Nat) :=
  evalNoPredChildStep isElemT t

/-- The node-set of /descendant::* : s1DescendantNameTest with the
wildcard test on an empty incoming node-set searches the descendants
of the root directly; no predicates, so the single partition is
flattened and sorted. -/
def evalDescElemsQ (t : RTree) : List (List Nat) :=
  dedupKeepFirst (sortByPos t (findDescT isElemT t []))

def anyF (test : RTree → Bool) : RForest → Bool
  | .nil => false
  | .cons c rest => test c || anyF test rest

/-- Whether the document has a root element (RootNode.rootElement is
set by the first parsed element, a child of the root). -/
def hasRootElem (t : RTree) : Bool :=
  anyF isElemT t.childrenOf

/-- The C3 counterexample document: a root holding one element. -/
def treeC3 : RTree :=
  .node .rootK "Document" (.cons (.node .elemK "a" .nil) .nil)

/-- A document for the C1 witness: a root whose root element tools
holds two X elements and an element b holding a third X. -/
def treeC1W : RTree :=
  .node .rootK "Document"
    (.cons
      (.node .elemK "tools"
        (.cons (.node .elemK "X" .nil)
          (.cons (.node .elemK "X" .nil)
            (.cons (.node .elemK "b"
              (.cons (.node .elemK "X" .nil) .nil)) .nil))))
      .nil)

/-! # Lemmas and theorems -/

/-! ## Slice evaluation lemmas -/

theorem take_min_len {α : Type} (s : List α) (m : Nat) :
    s.take (min m s.length) = s.take m := by
  rcases le_total m s.length with h | h
  · rw [min_eq_left h]
  · rw [min_eq_right h, List.take_length, List.take_of_length_le h]

theorem drop_min_len {α : Type} (s : List α) (k : Nat) :
    s.drop (min k s.length) = s.drop k := by
  rcases le_total k s.length with h | h
  · rw [min_eq_left h]
  · rw [min_eq_right h, List.drop_length, List.drop_eq_nil_of_le h]

theorem drop_min_of_len_le {α : Type} (l : List α) (k L : Nat)
    (h : l.length ≤ L) : l.drop (min k L) = l.drop k := by
  rcases le_total k L with h1 | h1
  · rw [min_eq_left h1]
  · rw [min_eq_right h1, List.drop_eq_nil_of_le h,
      List.drop_eq_nil_of_le (le_trans h h1)]

theorem ratTrunc_intCast (k : ℤ) : ratTrunc ((k : ℤ) : ℚ) = k := by
  unfold ratTrunc
  split
  · exact Int.floor_intCast k
  · exact Int.ceil_intCast k

theorem normSliceIdx_fin_intCast (L : Nat) (k : ℤ) (hk : 0 ≤ k) :
    normSliceIdx L (.fin ((k : ℤ) : ℚ)) = min k.toNat L := by
  simp only [normSliceIdx, ratTrunc_intCast]
  rw [if_neg (by omega)]

theorem jsRound_fin (q : ℚ) :
    XNum.jsRound (.fin q) = .fin ((⌊q + 1/2⌋ : ℤ) : ℚ) := rfl

theorem jsSlice_fin_fin (s : List Char) (a b : ℤ) (ha : 0 ≤ a)
    (hb : 0 ≤ b) :
    jsSlice s (.fin ((a : ℤ) : ℚ)) (.fin ((b : ℤ) : ℚ)) =
      (s.take b.toNat).drop a.toNat := by
  unfold jsSlice
  rw [normSliceIdx_fin_intCast _ _ ha, normSliceIdx_fin_intCast _ _ hb,
    take_min_len, drop_min_of_len_le _ _ _ (by
      rw [List.length_take]
      exact min_le_right _ _)]

theorem geZero_fin_intCast (k : ℤ) :
    XNum.geZero (.fin ((k : ℤ) : ℚ)) = decide (0 ≤ k) := by
  simp [XNum.geZero]

theorem substringTail_fin_fin (s : List Char) (a b : ℤ) :
    substringTail s (.fin ((a : ℤ) : ℚ)) (some (.fin ((b : ℤ) : ℚ))) =
      (s.take (a - 1 + b).toNat).drop (a - 1).toNat := by
  unfold substringTail
  simp only [XNum.isNaNx, XNum.subOne, XNum.add, Bool.false_eq_true,
    if_false]
  have hsub : ((a : ℚ) - 1) = ((a - 1 : ℤ) : ℚ) := by push_cast; ring
  rw [hsub]
  have hadd : (((b : ℤ) : ℚ) + ((a - 1 : ℤ) : ℚ)) = ((a - 1 + b : ℤ) : ℚ) := by
    push_cast; ring
  rw [hadd]
  have h0 : (XNum.fin 0) = .fin ((0 : ℤ) : ℚ) := by norm_num
  rcases le_or_lt 0 (a - 1) with h1 | h1
  · rw [if_pos (by rw [geZero_fin_intCast]; simpa using h1)]
    rcases le_or_lt 0 (a - 1 + b) with h2 | h2
    · rw [if_pos (by rw [geZero_fin_intCast]; simpa using h2)]
      exact jsSlice_fin_fin s (a - 1) (a - 1 + b) h1 h2
    · rw [if_neg (by rw [geZero_fin_intCast]; simpa using h2), h0,
        jsSlice_fin_fin s (a - 1) 0 h1 le_rfl]
      have hz : (a - 1 + b).toNat = 0 := by omega
      simp [hz]
  · rw [if_neg (by rw [geZero_fin_intCast]; simpa using h1)]
    have ha0 : (a - 1).toNat = 0 := by omega
    rcases le_or_lt 0 (a - 1 + b) with h2 | h2
    · rw [if_pos (by rw [geZero_fin_intCast]; simpa using h2), h0,
        jsSlice_fin_fin s 0 (a - 1 + b) le_rfl h2]
      simp [ha0]
    · rw [if_neg (by rw [geZero_fin_intCast]; simpa using h2), h0,
        jsSlice_fin_fin s 0 0 le_rfl le_rfl]
      have hz : (a - 1 + b).toNat = 0 := by omega
      simp [hz, ha0]

theorem substringTail_fin_posInf (s : List Char) (a : ℤ) :
    substringTail s (.fin ((a : ℤ) : ℚ)) (some .posInf) =
      s.drop (a - 1).toNat := by
  unfold substringTail
  simp only [XNum.isNaNx, XNum.subOne, XNum.add, Bool.false_eq_true,
    if_false]
  have hsub : ((a : ℚ) - 1) = ((a - 1 : ℤ) : ℚ) := by push_cast; ring
  rw [hsub]
  have hge : XNum.geZero .posInf = true := rfl
  rw [if_pos hge]
  unfold jsSlice
  have hL : normSliceIdx s.length .posInf = s.length := rfl
  rw [hL, List.take_length]
  rcases le_or_lt 0 (a - 1) with h1 | h1
  · rw [if_pos (by rw [geZero_fin_intCast]; simpa using h1),
      normSliceIdx_fin_intCast _ _ h1, drop_min_len]
  · rw [if_neg (by rw [geZero_fin_intCast]; simpa using h1)]
    have ha0 : (a - 1).toNat = 0 := by omega
    have hn : normSliceIdx s.length (.fin 0) = 0 := by
      have h0 : (XNum.fin 0) = .fin ((0 : ℤ) : ℚ) := by norm_num
      rw [h0, normSliceIdx_fin_intCast _ _ le_rfl]; simp
    rw [hn, ha0]

theorem substringTail_nan_start (s : List Char) (l : Option XNum) :
    substringTail s .nan l = [] := rfl

theorem substringTail_nan_len (s : List Char) (x : XNum) :
    substringTail s x (some .nan) = [] := by
  rcases x <;> rfl

/-! ## C4 -/

/-- C4 counterexample: the claim says substring rounds non-integer
start and length half-to-even; the source uses JS Math.round (round
half toward positive infinity).  At substring("12345", 2.5, 2.6) the
code returns "345" while the half-to-even reading dictates "234". -/
theorem c4_substring_not_half_to_even :
    substringFn "12345".toList (.fin (5/2)) (some (.fin (13/5))) =
      "345".toList ∧
    substringHalfToEven "12345".toList (.fin (5/2))
      (some (.fin (13/5))) = "234".toList ∧
    "345".toList ≠ "234".toList := by
  refine ⟨?_, ?_, by decide⟩
  · show substringTail _ (XNum.jsRound (.fin (5/2)))
      (some (XNum.jsRound (.fin (13/5)))) = _
    rw [jsRound_fin, jsRound_fin]
    have h1 : (⌊(5/2 : ℚ) + 1/2⌋ : ℤ) = 3 := by norm_num
    have h2 : (⌊(13/5 : ℚ) + 1/2⌋ : ℤ) = 3 := by norm_num
    rw [h1, h2, substringTail_fin_fin]
    decide
  · show substringTail _ (roundHalfToEven (.fin (5/2)))
      (some (roundHalfToEven (.fin (13/5)))) = _
    have h1 : roundHalfToEven (.fin (5/2)) = .fin ((2 : ℤ) : ℚ) := by
      rw [roundHalfToEven]
      norm_num
    have h2 : roundHalfToEven (.fin (13/5)) = .fin ((3 : ℤ) : ℚ) := by
      rw [roundHalfToEven]
      norm_num
    rw [h1, h2, substringTail_fin_fin]
    decide

/-- C4 (amended): substring(s, start, length?) uses 1-based indexing,
rounds non-integer start and length half toward positive infinity (JS
Math.round), clips the selected range to the string bounds, and
returns the empty string when start or length is NaN; the three quoted
corner examples hold as stated.  The single equation in the third
conjunct captures 1-based indexing (the "- 1"), the rounding (the
floors of x + 1/2) and the clipping (take/drop clamp at the string
bounds) at once. -/
theorem c4_substring_behaviour :
    (∀ (s : List Char) (l : Option XNum), substringFn s .nan l = []) ∧
    (∀ (s : List Char) (x : XNum), substringFn s x (some .nan) = []) ∧
    (∀ (s : List Char) (q r : ℚ),
      substringFn s (.fin q) (some (.fin r)) =
        (s.take (⌊q + 1/2⌋ - 1 + ⌊r + 1/2⌋).toNat).drop
          (⌊q + 1/2⌋ - 1).toNat) ∧
    substringFn "12345".toList (.fin (3/2)) (some (.fin (13/5))) =
      "234".toList ∧
    substringFn "12345".toList (XNum.divOp (.fin 0) (.fin 0))
      (some (.fin 3)) = [] ∧
    substringFn "12345".toList (.fin (-42))
      (some (XNum.divOp (.fin 1) (.fin 0))) = "12345".toList := by
  have hfin : ∀ (s : List Char) (q r : ℚ),
      substringFn s (.fin q) (some (.fin r)) =
        (s.take (⌊q + 1/2⌋ - 1 + ⌊r + 1/2⌋).toNat).drop
          (⌊q + 1/2⌋ - 1).toNat := by
    intro s q r
    show substringTail s (XNum.jsRound (.fin q))
      (some (XNum.jsRound (.fin r))) = _
    rw [jsRound_fin, jsRound_fin, substringTail_fin_fin]
  refine ⟨fun s l => rfl, ?_, hfin, ?_, ?_, ?_⟩
  · intro s x
    show substringTail s x.jsRound (some (XNum.jsRound .nan)) = []
    exact substringTail_nan_len s x.jsRound
  · rw [hfin]
    have h1 : (⌊(3/2 : ℚ) + 1/2⌋ : ℤ) = 2 := by norm_num
    have h2 : (⌊(13/5 : ℚ) + 1/2⌋ : ℤ) = 3 := by norm_num
    rw [h1, h2]
    decide
  · have hdiv : XNum.divOp (.fin 0) (.fin 0) = .nan := by
      simp [XNum.divOp]
    rw [hdiv]
    rfl
  · have hdiv : XNum.divOp (.fin 1) (.fin 0) = .posInf := by
      norm_num [XNum.divOp]
    rw [hdiv]
    show substringTail _ (XNum.jsRound (.fin (-42))) (some .posInf) = _
    rw [jsRound_fin]
    have h1 : (⌊(-42 : ℚ) + 1/2⌋ : ℤ) = -42 := by norm_num
    rw [h1, substringTail_fin_posInf]
    decide

/-! ## C7 -/

/-- C7: for every trace of warn sites produced by a parse that runs to
completion, the isWellFormed flag assigned at the end of parseDocument
is true exactly when no site issued a warning.  Warnings are counted
by a plain Nat counter that every warn site only increments (warn
returns normally — warnings never abort the parse), so the flag is
false as soon as any warning was issued. -/
theorem c7_wellformed_iff_no_warnings (sites : List WarnSite) :
    isWellFormedFlag sites = true ↔ ∀ s ∈ sites, siteWarnCount s = 0 := by
  simp only [isWellFormedFlag, totalWarnings, beq_iff_eq,
    List.sum_eq_zero_iff, List.mem_map]
  constructor
  · intro h s hs
    exact h _ ⟨s, hs, rfl⟩
  · rintro h x ⟨s, hs, rfl⟩
    exact h s hs

/-! ## C9 -/

/-- C9: queryOne returns null (none) exactly when the query evaluated
to an empty node-set; on a non-empty node-set it returns the set's
first member, and on a scalar result it returns that scalar unchanged.
queryOne is a total function of the query's value, so it raises no
error of its own. -/
theorem c9_queryOne_characterisation (v : XValue) :
    (queryOne v = none ↔ v = .nset []) ∧
    (∀ n l, v = .nset (n :: l) → queryOne v = some (.rnode n)) ∧
    (∀ x, v = .num x → queryOne v = some (.rnum x)) ∧
    (∀ s, v = .str s → queryOne v = some (.rstr s)) ∧
    (∀ b, v = .bl b → queryOne v = some (.rbool b)) := by
  rcases v with x | s | b | l
  · simp [queryOne]
  · simp [queryOne]
  · simp [queryOne]
  · rcases l with _ | ⟨n, l⟩ <;> simp [queryOne]

/-- Witness for C9 at concrete values. -/
theorem c9_queryOne_witness :
    queryOne (.nset []) = none ∧
    queryOne (.nset [⟨0, .fin 1⟩]) = some (.rnode ⟨0, .fin 1⟩) ∧
    queryOne (.str "x") = some (.rstr "x") :=
  ⟨(c9_queryOne_characterisation (.nset [])).1.mpr rfl,
   (c9_queryOne_characterisation (.nset [⟨0, .fin 1⟩])).2.1 _ _ rfl,
   (c9_queryOne_characterisation (.str "x")).2.2.2.1 _ rfl⟩

/-! ## C10 -/

/-- C10: count applied to a non-node-set argument silently pushes NaN
and raises no error, whereas sum raises an EvalError on every
non-node-set argument. -/
theorem c10_count_nan_sum_error (d : XValue) (h : d.isNset = false) :
    countFn d = .ok (.num .nan) ∧ sumFn d = .error .typeExpected := by
  rcases d with x | s | b | l
  · exact ⟨rfl, rfl⟩
  · exact ⟨rfl, rfl⟩
  · exact ⟨rfl, rfl⟩
  · simp [XValue.isNset] at h

/-- Witness for C10 at the spec scenario sum("3") / count("3"). -/
theorem c10_witness :
    (XValue.str "3").isNset = false ∧
    countFn (.str "3") = .ok (.num .nan) ∧
    sumFn (.str "3") = .error .typeExpected :=
  ⟨rfl, (c10_count_nan_sum_error (.str "3") rfl).1,
   (c10_count_nan_sum_error (.str "3") rfl).2⟩

/-! ## C5 -/

theorem resolveAttrLoop_dup_iff (lookup : String → Option NsNode)
    (attrs : List AttrName) :
    ∀ seen : List String, (∀ a ∈ attrs, (lookup a.pfx).isSome) →
      seen.Nodup →
      (resolveAttrLoop lookup true attrs seen =
          .error .duplicateExpanded ↔
        ¬ (seen ++ attrs.map (expandedOf lookup)).Nodup) := by
  induction attrs with
  | nil =>
    intro seen _ hseen
    simp [resolveAttrLoop, hseen]
  | cons a rest ih =>
    intro seen hres hseen
    obtain ⟨ns, hns⟩ := Option.isSome_iff_exists.mp (hres a (by simp))
    have hexp : expandedOf lookup a = expandedName ns.uri a.lname := by
      simp [expandedOf, hns]
    simp only [resolveAttrLoop, hns, eq_self_iff_true, if_true]
    by_cases hmem : expandedName ns.uri a.lname ∈ seen
    · rw [if_pos hmem]
      refine iff_of_true rfl ?_
      intro hnd
      rcases List.nodup_append.mp hnd with ⟨_, _, hdisj⟩
      refine hdisj hmem ?_
      simp [hexp]
    · rw [if_neg hmem]
      have hns2 : (expandedName ns.uri a.lname :: seen).Nodup :=
        List.nodup_cons.mpr ⟨hmem, hseen⟩
      have hres2 : ∀ b ∈ rest, (lookup b.pfx).isSome := by
        intro b hb
        exact hres b (by simp [hb])
      rw [ih (expandedName ns.uri a.lname :: seen) hres2 hns2]
      have hperm :
          (seen ++ expandedOf lookup a :: rest.map (expandedOf lookup)).Perm
            ((expandedName ns.uri a.lname :: seen) ++
              rest.map (expandedOf lookup)) := by
        rw [hexp, List.cons_append]
        exact List.perm_middle
      rw [List.map_cons, not_iff_not, hperm.nodup_iff]

/-- C5: with ensureUniqueNamespacedAttributes on, resolving the
namespaced attributes of one element fails with a ParseError exactly
when two of them carry the same expanded name (namespace URI plus
local name), regardless of their prefixes; all prefixes are assumed
resolvable through the scope chain (the resolution error would
otherwise fire first). -/
theorem c5_unique_namespaced_attributes (lookup : String → Option NsNode)
    (attrs : List AttrName)
    (hres : ∀ a ∈ attrs, (lookup a.pfx).isSome) :
    resolveAttrLoop lookup true attrs [] = .error .duplicateExpanded ↔
      ¬ (attrs.map (expandedOf lookup)).Nodup := by
  simpa using resolveAttrLoop_dup_iff lookup attrs [] hres List.nodup_nil

/-- Witness for C5 at the spec example
r xmlns:p="urn:x" xmlns:q="urn:x" p:a="1" q:a="2": parsing fails with
the duplicate-expanded-name ParseError. -/
theorem c5_witness :
    resolveAttrLoop exLookupC5 true exAttrsC5 [] =
      .error .duplicateExpanded :=
  (c5_unique_namespaced_attributes exLookupC5 exAttrsC5 (by decide)).mpr
    (by decide)

/-! ## C6 -/

/-- C6 counterexample: the claim lists the rejected declarations
exhaustively ("inputs violating none of these constraints do not raise
these errors"), but the code also rejects (i) a prefix other than
xmlns bound to the XMLNS URI, e.g. xmlns:foo="http://www.w3.org/2000/xmlns/",
and (ii) a default namespace declaration with an empty value,
xmlns="" — both violate none of the claim clauses (a)-(d) yet raise a
ParseError. -/
theorem c6_counterexample :
    (checkNsDecl (some "foo") xmlnsUriS).isSome = true ∧
    ¬ claimedNsDeclViolation (some "foo") xmlnsUriS ∧
    (checkNsDecl none "").isSome = true ∧
    ¬ claimedNsDeclViolation none "" := by
  refine ⟨by decide, ?_, by decide, ?_⟩
  · intro h
    simp only [claimedNsDeclViolation] at h
    rcases h with ⟨h1, h2⟩ | ⟨h1, h2⟩ | ⟨h1, h2⟩ | h1 | ⟨h1, h2⟩ | ⟨h1, h2⟩
    · exact absurd h1 (by decide)
    · exact absurd h1 (by decide)
    · exact absurd h2 (by decide)
    · exact absurd h1 (by decide)
    · exact absurd h1 (by decide)
    · exact absurd h2 (by decide)
  · intro h
    simp only [claimedNsDeclViolation] at h
    rcases h with ⟨h1, h2⟩ | ⟨h1, h2⟩ | ⟨h1, h2⟩ | h1 | ⟨h1, h2⟩ | ⟨h1, h2⟩
    · exact absurd h1 (by decide)
    · exact absurd h2 (by decide)
    · obtain ⟨p, hp, _⟩ := h1
      exact Option.noConfusion hp
    · exact absurd h1 (by decide)
    · exact absurd h2 (by decide)
    · obtain ⟨p, hp⟩ := h1
      exact Option.noConfusion hp

/-- C6 (amended): parsing fails with a ParseError exactly when (a) the
xml prefix is bound to a URI other than the XML URI, the XML URI is
declared as a default namespace, or a prefix other than xml is bound
to the XML URI; (b) the xmlns prefix is itself declared, the XMLNS URI
is declared as a default namespace, or a prefix other than xmlns is
bound to the XMLNS URI; (c) any namespace declaration (prefixed or
default) has an empty value after trimming; or (d) an element's
qualified name carries the prefix xmlns; and no other declaration
raises these errors. -/
theorem c6_reserved_namespace_constraints :
    (∀ (decl : Option String) (uriRaw : String),
      (checkNsDecl decl uriRaw).isSome ↔ nsDeclViolation decl uriRaw) ∧
    (∀ pn : String, elementNameRejected pn = true ↔ pn = "xmlns") := by
  constructor
  · intro decl uriRaw
    have e1 : xmlUriS ≠ xmlnsUriS := by decide
    have e2 : xmlUriS ≠ "" := by decide
    have e3 : xmlnsUriS ≠ "" := by decide
    have e4 : ("xml" : String) ≠ "xmlns" := by decide
    have e5 : ("xml" : String) ≠ "" := by decide
    have e6 : ("xmlns" : String) ≠ "" := by decide
    rcases decl with _ | p
    · by_cases h1 : jsTrim uriRaw = xmlUriS <;>
        by_cases h2 : jsTrim uriRaw = xmlnsUriS <;>
        by_cases h3 : jsTrim uriRaw = "" <;>
        simp_all [checkNsDecl, nsDeclViolation, nsDeclLname, xmlPfx]
    · by_cases hp1 : p = "xml" <;> by_cases hp2 : p = "xmlns" <;>
        by_cases hp0 : p = "" <;>
        by_cases h1 : jsTrim uriRaw = xmlUriS <;>
        by_cases h2 : jsTrim uriRaw = xmlnsUriS <;>
        by_cases h3 : jsTrim uriRaw = "" <;>
        simp_all [checkNsDecl, nsDeclViolation, nsDeclLname, xmlPfx]
  · intro pn
    simp [elementNameRejected]

/-! ## C8 -/

theorem lt_length_of_getElem?_eq_some {α : Type} {l : List α} {n : Nat}
    {a : α} (h : l[n]? = some a) : n < l.length := by
  by_contra hc
  rw [List.getElem?_eq_none (by omega)] at h
  exact Option.noConfusion h

theorem getElem?_append_lt {α : Type} (l1 l2 : List α) (n : Nat)
    (h : n < l1.length) : (l1 ++ l2)[n]? = l1[n]? := by
  rw [List.getElem?_append, if_pos h]

theorem appendKidAt_length (a : List BNode) (pid cid : Nat) :
    (appendKidAt a pid cid).length = a.length := by
  induction a generalizing pid with
  | nil => rfl
  | cons n rest ih =>
    cases pid with
    | zero => simp [appendKidAt]
    | succ p => simp [appendKidAt, ih]

theorem appendKidAt_getElem? (a : List BNode) (pid cid i : Nat) :
    (appendKidAt a pid cid)[i]? =
      if i = pid then
        Option.map (fun n => { n with kids := n.kids ++ [cid] }) a[i]?
      else a[i]? := by
  induction a generalizing pid i with
  | nil => simp [appendKidAt]
  | cons n rest ih =>
    cases pid with
    | zero =>
      cases i with
      | zero => simp [appendKidAt]
      | succ i2 => simp [appendKidAt]
    | succ p =>
      cases i with
      | zero => simp [appendKidAt]
      | succ i2 => simpa [appendKidAt] using ih p i2

/-- The link invariant as used in the induction: every node carrying a
children index is found at that index in its parent's children. -/
@[reducible] def arenaInv (a : List BNode) : Prop :=
  ∀ (i : Nat) (n : BNode) (j : Nat), a[i]? = some n → n.childIdx = some j →
    ∃ (pid : Nat) (p : BNode), n.parentId = some pid ∧ a[pid]? = some p ∧
      p.kids[j]? = some i

theorem arenaInv_init : arenaInv initArena := by
  intro i n j h hj
  cases i with
  | zero =>
    simp only [initArena, List.getElem?_cons_zero, Option.some.injEq] at h
    rw [← h] at hj
    exact Option.noConfusion hj
  | succ i2 =>
    simp [initArena] at h

theorem arenaInv_extend (a : List BNode) (pid : Nat) (newN : BNode)
    (h : pid < a.length) (hpar : newN.parentId = some pid)
    (hidx : ∀ j, newN.childIdx = some j →
      ∃ hp : pid < a.length, j = (a.get ⟨pid, hp⟩).kids.length)
    (ha : arenaInv a) :
    arenaInv (appendKidAt a pid a.length ++ [newN]) := by
  intro i n j hi hj
  have hlen := appendKidAt_length a pid a.length
  by_cases hilt : i < a.length
  · rw [getElem?_append_lt _ _ _ (by rw [hlen]; exact hilt)] at hi
    rw [appendKidAt_getElem?] at hi
    have key : ∀ m : BNode, a[i]? = some m → m.childIdx = some j →
        m.parentId = n.parentId →
        ∃ (pid2 : Nat) (p : BNode), n.parentId = some pid2 ∧
          (appendKidAt a pid a.length ++ [newN])[pid2]? = some p ∧
          p.kids[j]? = some i := by
      intro m hm hmj hmp
      obtain ⟨pid2, p, hp1, hp2, hp3⟩ := ha i m j hm hmj
      have hpid2lt : pid2 < a.length := lt_length_of_getElem?_eq_some hp2
      have hjlt : j < p.kids.length := lt_length_of_getElem?_eq_some hp3
      by_cases hq : pid2 = pid
      · refine ⟨pid2, { p with kids := p.kids ++ [a.length] },
          by rw [← hmp]; exact hp1, ?_, ?_⟩
        · rw [getElem?_append_lt _ _ _ (by rw [hlen]; exact hpid2lt),
            appendKidAt_getElem?, if_pos hq, hp2]
          rfl
        · show (p.kids ++ [a.length])[j]? = some i
          rw [getElem?_append_lt _ _ _ hjlt]
          exact hp3
      · refine ⟨pid2, p, by rw [← hmp]; exact hp1, ?_, hp3⟩
        rw [getElem?_append_lt _ _ _ (by rw [hlen]; exact hpid2lt),
          appendKidAt_getElem?, if_neg hq]
        exact hp2
    by_cases hip : i = pid
    · rw [if_pos hip] at hi
      obtain ⟨m, hm, hmn⟩ := Option.map_eq_some'.mp hi
      have h1 : m.childIdx = some j := by rw [← hj, ← hmn]
      have h2 : m.parentId = n.parentId := by rw [← hmn]
      exact key m hm h1 h2
    · rw [if_neg hip] at hi
      exact key n hi hj rfl
  · have hile : i = a.length ∨ a.length < i := by omega
    rcases hile with hieq | higt
    · subst hieq
      have hi2 : (appendKidAt a pid a.length ++
          [newN])[(appendKidAt a pid a.length).length]? = some n := by
        rw [hlen]
        exact hi
      rw [List.getElem?_concat_length] at hi2
      cases hi2
      obtain ⟨hp, hjv⟩ := hidx j hj
      refine ⟨pid, { a.get ⟨pid, h⟩ with
        kids := (a.get ⟨pid, h⟩).kids ++ [a.length] }, hpar, ?_, ?_⟩
      · rw [getElem?_append_lt _ _ _ (by rw [hlen]; exact h),
          appendKidAt_getElem?, if_pos rfl,
          List.getElem?_eq_getElem h]
        rfl
      · show ((a.get ⟨pid, h⟩).kids ++ [a.length])[j]? = some a.length
        rw [hjv, List.getElem?_concat_length]
    · exfalso
      rw [List.getElem?_eq_none (by simp [hlen]; omega)] at hi
      exact Option.noConfusion hi

theorem arenaInv_applyOp (a : List BNode) (op : BuildOp)
    (ha : arenaInv a) : arenaInv (applyOp a op) := by
  cases op with
  | insertChild pid k =>
    by_cases h : pid < a.length
    · simp only [applyOp, dif_pos h]
      exact arenaInv_extend a pid _ h rfl (fun j hj => ⟨h, by
        simpa using hj.symm⟩) ha
    · simpa only [applyOp, dif_neg h] using ha
  | attach pid k =>
    by_cases h : pid < a.length
    · simp only [applyOp, if_pos h]
      intro i n j hi hj
      by_cases hilt : i < a.length
      · rw [getElem?_append_lt _ _ _ hilt] at hi
        obtain ⟨pid2, p, hp1, hp2, hp3⟩ := ha i n j hi hj
        have hpid2lt : pid2 < a.length := lt_length_of_getElem?_eq_some hp2
        exact ⟨pid2, p, hp1,
          by rw [getElem?_append_lt _ _ _ hpid2lt]; exact hp2, hp3⟩
      · have hile : i = a.length ∨ a.length < i := by omega
        rcases hile with hieq | higt
        · subst hieq
          rw [List.getElem?_concat_length] at hi
          cases hi
          exact Option.noConfusion hj
        · exfalso
          rw [List.getElem?_eq_none (by simp; omega)] at hi
          exact Option.noConfusion hi
    · simpa only [applyOp, if_neg h] using ha
  | scriptText pid =>
    by_cases h : pid < a.length
    · simp only [applyOp, if_pos h]
      refine arenaInv_extend a pid _ h rfl (fun j hj => ?_) ha
      exact Option.noConfusion hj
    · simpa only [applyOp, if_neg h] using ha

/-- C8 counterexample: on the parse of an element carrying one
attribute, the attribute node (id 2) is a non-root node (it has a
parent) but its children index is NaN (none) and it is not a member of
its parent's children, so the claimed equation
n.parent.children[n.index] == n fails for it. -/
theorem c8_counterexample :
    (buildArena c8ExampleOps)[2]? =
      some ⟨.attrB, some 1, none, []⟩ ∧
    ¬ childLinkedAt (buildArena c8ExampleOps) 2 := by
  constructor
  · decide
  · intro hcl
    obtain ⟨pid, p, j, h1, h2, h3, h4⟩ :=
      hcl ⟨.attrB, some 1, none, []⟩ (by decide) (by simp)
    exact Option.noConfusion h3

/-- C8 (amended): after every parse built from the parser's three
linking primitives, every node that carries a children index — i.e.
every node inserted through setParent: elements, texts, comments and
PIs, but not attribute/namespace/DTD/XMLDecl nodes nor the HTML script
synthetic text child, whose index is NaN or undefined — is found at
exactly that index in its parent's children sequence
(n.parent.children[n.index] == n). -/
theorem c8_parent_index_invariant (ops : List BuildOp) :
    arenaInv (buildArena ops) := by
  have main : ∀ (l : List BuildOp) (a : List BNode), arenaInv a →
      arenaInv (l.foldl applyOp a) := by
    intro l
    induction l with
    | nil => intro a ha; exact ha
    | cons op rest ih =>
      intro a ha
      exact ih (applyOp a op) (arenaInv_applyOp a op ha)
  exact main ops initArena arenaInv_init

/-- Witness for C8 at the example build: the element node (id 1) is
linked at index 0 of the root's children. -/
theorem c8_witness :
    (buildArena c8ExampleOps)[1]? =
      some ⟨.elemB, some 0, some 0, []⟩ ∧
    ∃ pid p, (BNode.mk .elemB (some 0) (some 0) []).parentId = some pid ∧
      (buildArena c8ExampleOps)[pid]? = some p ∧ p.kids[0]? = some 1 :=
  ⟨by decide,
   c8_parent_index_invariant c8ExampleOps 1
     ⟨.elemB, some 0, some 0, []⟩ 0 (by decide) rfl⟩

/-! ## C2 -/

/-- C2: the five-axis partition law fails on the code.  In the
document of treeC2 (root element a holding x and then y, y holding b),
with the element b (path [0,1,0]) as context node, the element x
(path [0,0]) is a node of the tree yet belongs to none of
preceding::node(), ancestor::node(), self::node(), descendant::node(),
following::node(): findPreceding returns immediately because b has no
preceding sibling (index - 1 < 0), and findFollowing stops climbing
before scanning the root's level.  Per the claim, x had to be in
exactly one of the five (namely preceding). -/
theorem c2_axis_partition_failure :
    validP treeC2 [0, 0] = true ∧
    testAt treeC2 isElemT [0, 0] = true ∧
    [0, 0] ∉ axisSelfSet [0, 1, 0] ∧
    [0, 0] ∉ axisAncestorSet [0, 1, 0] ∧
    [0, 0] ∉ axisDescendantSet treeC2 [0, 1, 0] ∧
    [0, 0] ∉ axisFollowingSet treeC2 [0, 1, 0] ∧
    [0, 0] ∉ axisPrecedingSet treeC2 [0, 1, 0] := by
  decide

/-! ## C3 counterexample -/

/-- C3 counterexample: for the document of treeC3 (a root holding the
single element a), count(//*) = 1 and count(/descendant::*) = 1 and a
root element exists, so the claimed equation
count(//*) = count(/descendant::*) + 1 fails (both queries select all
elements; /descendant::* from the document root already includes the
root element). -/
theorem c3_counterexample :
    (evalAllElemsQ treeC3).length = 1 ∧
    (evalDescElemsQ treeC3).length = 1 ∧
    hasRootElem treeC3 = true ∧
    (1 : Nat) ≠ 1 + 1 := by
  decide

/-! ## Set (dedup) lemmas -/

theorem mem_dedupSeen {α : Type} [DecidableEq α] (seen l : List α)
    (a : α) : a ∈ dedupSeen seen l ↔ a ∈ l ∧ a ∉ seen := by
  induction l generalizing seen with
  | nil => simp [dedupSeen]
  | cons b l ih =>
    by_cases hb : b ∈ seen
    · rw [dedupSeen, if_pos hb, ih]
      constructor
      · rintro ⟨h1, h2⟩
        exact ⟨by simp [h1], h2⟩
      · rintro ⟨h1, h2⟩
        rcases List.mem_cons.mp h1 with rfl | h1
        · exact absurd hb h2
        · exact ⟨h1, h2⟩
    · rw [dedupSeen, if_neg hb]
      simp only [List.mem_cons, ih]
      constructor
      · rintro (rfl | ⟨h1, h2⟩)
        · exact ⟨Or.inl rfl, hb⟩
        · refine ⟨Or.inr h1, fun hs => h2 (by simp [hs])⟩
      · rintro ⟨rfl | h1, h2⟩
        · exact Or.inl rfl
        · by_cases hab : a = b
          · exact Or.inl hab
          · refine Or.inr ⟨h1, ?_⟩
            simp only [List.mem_cons, hab, false_or]
            exact h2

theorem mem_dedupKeepFirst {α : Type} [DecidableEq α] (l : List α)
    (a : α) : a ∈ dedupKeepFirst l ↔ a ∈ l := by
  rw [dedupKeepFirst, mem_dedupSeen]
  simp

theorem nodup_dedupSeen {α : Type} [DecidableEq α] (seen l : List α) :
    (dedupSeen seen l).Nodup := by
  induction l generalizing seen with
  | nil => simp [dedupSeen]
  | cons b l ih =>
    by_cases hb : b ∈ seen
    · rw [dedupSeen, if_pos hb]
      exact ih seen
    · rw [dedupSeen, if_neg hb]
      refine List.nodup_cons.mpr ⟨?_, ih (b :: seen)⟩
      rw [mem_dedupSeen]
      rintro ⟨_, h2⟩
      exact h2 (by simp)

theorem nodup_dedupKeepFirst {α : Type} [DecidableEq α] (l : List α) :
    (dedupKeepFirst l).Nodup :=
  nodup_dedupSeen [] l

theorem dedupSeen_eq_self {α : Type} [DecidableEq α] (seen l : List α)
    (hl : l.Nodup) (hdisj : ∀ a ∈ l, a ∉ seen) : dedupSeen seen l = l := by
  induction l generalizing seen with
  | nil => rfl
  | cons b l ih =>
    rw [dedupSeen, if_neg (hdisj b (by simp))]
    congr 1
    refine ih (b :: seen) (List.nodup_cons.mp hl).2 ?_
    intro a ha
    rw [List.mem_cons]
    rintro (rfl | h)
    · exact (List.nodup_cons.mp hl).1 ha
    · exact hdisj a (by simp [ha]) h

theorem dedupKeepFirst_eq_self {α : Type} [DecidableEq α] (l : List α)
    (hl : l.Nodup) : dedupKeepFirst l = l :=
  dedupSeen_eq_self [] l hl (by simp)

theorem head?_dedupKeepFirst {α : Type} [DecidableEq α] (l : List α) :
    (dedupKeepFirst l).head? = l.head? := by
  cases l with
  | nil => rfl
  | cons b l =>
    rw [dedupKeepFirst, dedupSeen, if_neg (by simp)]
    rfl

theorem length_dedupSeen_le {α : Type} [DecidableEq α] (seen l : List α) :
    (dedupSeen seen l).length ≤ l.length := by
  induction l generalizing seen with
  | nil => simp [dedupSeen]
  | cons b l ih =>
    by_cases hb : b ∈ seen
    · rw [dedupSeen, if_pos hb]
      exact le_trans (ih seen) (by simp)
    · rw [dedupSeen, if_neg hb]
      simpa using ih (b :: seen)

/-! ## Sorting lemmas -/

theorem mem_insByPos (t : RTree) (x : List Nat) (l : List (List Nat))
    (a : List Nat) : a ∈ insByPos t x l ↔ a = x ∨ a ∈ l := by
  induction l with
  | nil => simp [insByPos]
  | cons y ys ih =>
    rw [insByPos]
    split
    · simp
    · simp only [List.mem_cons, ih]
      tauto

theorem mem_sortByPos (t : RTree) (l : List (List Nat)) (a : List Nat) :
    a ∈ sortByPos t l ↔ a ∈ l := by
  induction l with
  | nil => simp [sortByPos]
  | cons x xs ih =>
    rw [sortByPos, mem_insByPos, ih]
    simp

theorem length_insByPos (t : RTree) (x : List Nat) (l : List (List Nat)) :
    (insByPos t x l).length = l.length + 1 := by
  induction l with
  | nil => rfl
  | cons y ys ih =>
    rw [insByPos]
    split
    · rfl
    · simp [ih]

theorem length_sortByPos (t : RTree) (l : List (List Nat)) :
    (sortByPos t l).length = l.length := by
  induction l with
  | nil => rfl
  | cons x xs ih =>
    rw [sortByPos, length_insByPos, ih]
    rfl

theorem perm_sortByPos (t : RTree) (l : List (List Nat)) :
    (sortByPos t l).Perm l := by
  induction l with
  | nil => exact List.Perm.refl _
  | cons x xs ih =>
    rw [sortByPos]
    have hperm : ∀ (m : List (List Nat)),
        (insByPos t x m).Perm (x :: m) := by
      intro m
      induction m with
      | nil => exact List.Perm.refl _
      | cons y ys ihm =>
        rw [insByPos]
        split
        · exact List.Perm.refl _
        · exact ((ihm.cons y).trans (List.Perm.swap x y ys))
    exact (hperm (sortByPos t xs)).trans (ih.cons x)

theorem sorted_insByPos (t : RTree) (x : List Nat) (l : List (List Nat))
    (hl : l.Pairwise (fun a b => posOf t a ≤ posOf t b)) :
    (insByPos t x l).Pairwise (fun a b => posOf t a ≤ posOf t b) := by
  induction l with
  | nil => simp [insByPos]
  | cons y ys ih =>
    rw [insByPos]
    rcases List.pairwise_cons.mp hl with ⟨hy, hys⟩
    split
    · next hle =>
      refine List.pairwise_cons.mpr ⟨?_, hl⟩
      intro a ha
      rcases List.mem_cons.mp ha with rfl | ha
      · exact hle
      · exact le_trans hle (hy a ha)
    · next hgt =>
      refine List.pairwise_cons.mpr ⟨?_, ih hys⟩
      intro a ha
      rcases (mem_insByPos t x ys a).mp ha with rfl | ha
      · omega
      · exact hy a ha

theorem sorted_sortByPos (t : RTree) (l : List (List Nat)) :
    (sortByPos t l).Pairwise (fun a b => posOf t a ≤ posOf t b) := by
  induction l with
  | nil => simp [sortByPos]
  | cons x xs ih =>
    rw [sortByPos]
    exact sorted_insByPos t x _ ih

theorem head_min_sortByPos (t : RTree) (l : List (List Nat))
    (y : List Nat) (ys : List (List Nat)) (h : sortByPos t l = y :: ys) :
    y ∈ l ∧ ∀ a ∈ l, posOf t y ≤ posOf t a := by
  have hmem : y ∈ l := by
    rw [← mem_sortByPos t l y, h]
    simp
  refine ⟨hmem, ?_⟩
  intro a ha
  rw [← mem_sortByPos t l a, h] at ha
  rcases List.mem_cons.mp ha with rfl | ha
  · exact le_refl _
  · have hs := sorted_sortByPos t l
    rw [h] at hs
    exact (List.pairwise_cons.mp hs).1 a ha

theorem head?_sortByPos_iff (t : RTree) (l : List (List Nat))
    (hinj : ∀ a ∈ l, ∀ b ∈ l, posOf t a = posOf t b → a = b)
    (n : List Nat) :
    (sortByPos t l).head? = some n ↔
      n ∈ l ∧ ∀ m ∈ l, posOf t n ≤ posOf t m := by
  constructor
  · intro h
    rcases hs : sortByPos t l with _ | ⟨y, ys⟩
    · rw [hs] at h
      exact Option.noConfusion h
    · rw [hs] at h
      have hy : y = n := by
        simpa using h
      subst hy
      exact head_min_sortByPos t l y ys hs
  · rintro ⟨hn, hmin⟩
    rcases hs : sortByPos t l with _ | ⟨y, ys⟩
    · exfalso
      have := (mem_sortByPos t l n).mpr hn
      rw [hs] at this
      simp at this
    · obtain ⟨hy, hymin⟩ := head_min_sortByPos t l y ys hs
      have hyn : y = n :=
        hinj y hy n hn (le_antisymm (hymin n hn) (hmin y hy))
      rw [hyn]
      rfl

/-! ## Position injectivity -/

theorem idxOf_inj {α : Type} [DecidableEq α] (l : List α) (a b : α)
    (ha : a ∈ l) (hb : b ∈ l) (h : idxOf a l = idxOf b l) : a = b := by
  induction l with
  | nil => simp at ha
  | cons c cs ih =>
    by_cases hca : c = a <;> by_cases hcb : c = b
    · rw [← hca, ← hcb]
    · rw [idxOf, idxOf, if_pos hca, if_neg hcb] at h
      exact absurd h (by omega)
    · rw [idxOf, idxOf, if_neg hca, if_pos hcb] at h
      exact absurd h (by omega)
    · rw [idxOf, idxOf, if_neg hca, if_neg hcb] at h
      rcases List.mem_cons.mp ha with rfl | ha
      · exact absurd rfl hca
      rcases List.mem_cons.mp hb with rfl | hb
      · exact absurd rfl hcb
      exact ih ha hb (by omega)

/-! ## Tree structure lemmas -/

theorem subT_cons (t : RTree) (j : Nat) (r : List Nat) :
    subT t (j :: r) = subF t.childrenOf j r := rfl

theorem subF_cons_zero (c : RTree) (rest : RForest) (r : List Nat) :
    subF (.cons c rest) 0 r = subT c r := rfl

theorem subF_cons_succ (c : RTree) (rest : RForest) (j : Nat)
    (r : List Nat) : subF (.cons c rest) (j + 1) r = subF rest j r := rfl

theorem subF_nil (j : Nat) (r : List Nat) :
    subF .nil j r = none := rfl

theorem wfT_parts (k : NKind) (nm : String) (cs : RForest)
    (hw : wfT (.node k nm cs) = true) :
    (isParentKind k || cs.isNil) = true ∧ wfF cs = true := by
  rw [wfT] at hw
  simpa only [Bool.and_eq_true] using hw

theorem wfF_parts (c : RTree) (rest : RForest)
    (hw : wfF (.cons c rest) = true) :
    wfT c = true ∧ wfF rest = true := by
  rw [wfF] at hw
  simpa only [Bool.and_eq_true] using hw

theorem wfF_get? (f : RForest) (j : Nat) (c : RTree)
    (hf : wfF f = true) (h : f.get? j = some c) : wfT c = true := by
  cases f with
  | nil => exact Option.noConfusion h
  | cons d rest =>
    obtain ⟨hd, hrest⟩ := wfF_parts d rest hf
    cases j with
    | zero =>
      rw [RForest.get?] at h
      cases h
      exact hd
    | succ j2 =>
      exact wfF_get? rest j2 c hrest h

theorem wfT_subT (t : RTree) (p : List Nat) (u : RTree)
    (hw : wfT t = true) (h : subT t p = some u) : wfT u = true := by
  induction p generalizing t with
  | nil =>
    rw [subT] at h
    cases h
    exact hw
  | cons j r ih =>
    rw [subT_cons] at h
    rw [subF] at h
    cases hc : t.childrenOf.get? j with
    | none => rw [hc] at h; exact Option.noConfusion h
    | some c =>
      rw [hc] at h
      refine ih c ?_ h
      cases t with
      | node k nm cs =>
        exact wfF_get? cs j c (wfT_parts k nm cs hw).2 hc

theorem parentKind_of_child (u : RTree) (j : Nat) (c : RTree)
    (hw : wfT u = true) (h : u.childrenOf.get? j = some c) :
    isParentKind u.kindOf = true := by
  cases u with
  | node k nm cs =>
    obtain ⟨hor, _⟩ := wfT_parts k nm cs hw
    simp only [Bool.or_eq_true] at hor
    rcases hor with hk | hnil
    · exact hk
    · exfalso
      cases cs with
      | nil => exact Option.noConfusion h
      | cons d rest => simp [RForest.isNil] at hnil

mutual
theorem mem_preT (t : RTree) (p q : List Nat) :
    q ∈ preT t p ↔ ∃ r, (subT t r).isSome ∧ q = p ++ r := by
  cases t with
  | node k nm cs =>
    rw [preT]
    simp only [List.mem_cons]
    constructor
    · rintro (rfl | h)
      · exact ⟨[], by simp [subT], by simp⟩
      · obtain ⟨j, r, h1, h2⟩ := (mem_preF cs p 0 q).mp h
        refine ⟨j :: r, ?_, by simpa using h2⟩
        rw [subT_cons]
        exact h1
    · rintro ⟨r, h1, rfl⟩
      cases r with
      | nil => exact Or.inl (by simp)
      | cons j r2 =>
        refine Or.inr ((mem_preF cs p 0 _).mpr ⟨j, r2, ?_, by simp⟩)
        rw [subT_cons] at h1
        exact h1
theorem mem_preF (f : RForest) (p : List Nat) (i : Nat) (q : List Nat) :
    q ∈ preF f p i ↔
      ∃ j r, (subF f j r).isSome ∧ q = p ++ (i + j) :: r := by
  cases f with
  | nil => simp [preF, subF, RForest.get?]
  | cons c rest =>
    rw [preF]
    simp only [List.mem_append]
    constructor
    · rintro (h | h)
      · obtain ⟨r, h1, h2⟩ := (mem_preT c (p ++ [i]) q).mp h
        refine ⟨0, r, ?_, ?_⟩
        · rw [subF_cons_zero]
          exact h1
        · rw [h2]
          simp
      · obtain ⟨j, r, h1, h2⟩ := (mem_preF rest p (i + 1) q).mp h
        refine ⟨j + 1, r, ?_, ?_⟩
        · rw [subF_cons_succ]
          exact h1
        · rw [h2]
          have harith : i + 1 + j = i + (j + 1) := by omega
          rw [harith]
    · rintro ⟨j, r, h1, rfl⟩
      cases j with
      | zero =>
        refine Or.inl ((mem_preT c (p ++ [i]) _).mpr ⟨r, ?_, by simp⟩)
        rw [subF_cons_zero] at h1
        exact h1
      | succ j2 =>
        refine Or.inr ((mem_preF rest p (i + 1) _).mpr ⟨j2, r, ?_, ?_⟩)
        · rw [subF_cons_succ] at h1
          exact h1
        · have harith : i + 1 + j2 = i + (j2 + 1) := by omega
          rw [harith]
end

theorem valid_iff_mem_allPaths (t : RTree) (q : List Nat) :
    validP t q = true ↔ q ∈ allPaths t := by
  rw [allPaths, mem_preT]
  constructor
  · intro h
    exact ⟨q, by rwa [validP] at h, by simp⟩
  · rintro ⟨r, h1, rfl⟩
    rw [validP]
    simpa using h1

theorem posOf_inj (t : RTree) (a b : List Nat) (ha : validP t a = true)
    (hb : validP t b = true) (h : posOf t a = posOf t b) : a = b :=
  idxOf_inj (allPaths t) a b ((valid_iff_mem_allPaths t a).mp ha)
    ((valid_iff_mem_allPaths t b).mp hb) h

theorem subT_append_single (t : RTree) (p : List Nat) (j : Nat) :
    subT t (p ++ [j]) = (subT t p).bind (fun u => u.childrenOf.get? j) := by
  induction p generalizing t with
  | nil =>
    cases hc : t.childrenOf.get? j with
    | none => simp [subT_cons, subF, subT, hc]
    | some c => simp [subT_cons, subF, subT, hc]
  | cons a p2 ih =>
    cases hc : t.childrenOf.get? a with
    | none => simp [List.cons_append, subT_cons, subF, hc]
    | some c =>
      simp only [List.cons_append, subT_cons, subF, hc, Option.bind]
      exact ih c

theorem mem_tlF (test : RTree → Bool) (f : RForest) (p : List Nat)
    (i : Nat) (q : List Nat) :
    q ∈ tlF test f p i ↔
      ∃ j c, f.get? j = some c ∧ test c = true ∧ q = p ++ [i + j] := by
  cases f with
  | nil => simp [tlF, RForest.get?]
  | cons c rest =>
    rw [tlF]
    simp only [List.mem_append]
    constructor
    · rintro (h | h)
      · rcases htc : test c with _ | _
        · rw [htc] at h
          simp at h
        · rw [htc] at h
          simp only [List.mem_singleton] at h
          exact ⟨0, c, rfl, htc, by simpa using h⟩
      · obtain ⟨j, d, h1, h2, h3⟩ := (mem_tlF test rest p (i + 1) q).mp h
        refine ⟨j + 1, d, h1, h2, ?_⟩
        rw [h3]
        have harith : i + 1 + j = i + (j + 1) := by omega
        rw [harith]
    · rintro ⟨j, d, h1, h2, rfl⟩
      cases j with
      | zero =>
        rw [RForest.get?] at h1
        cases h1
        rw [h2]
        exact Or.inl (by simp)
      | succ j2 =>
        refine Or.inr ((mem_tlF test rest p (i + 1) _).mpr
          ⟨j2, d, h1, h2, ?_⟩)
        have harith : i + 1 + j2 = i + (j2 + 1) := by omega
        rw [harith]

/-! ## findDescendants characterisation -/

mutual
theorem mem_findDescT (test : RTree → Bool) (t : RTree) (p q : List Nat)
    (hw : wfT t = true) :
    q ∈ findDescT test t p ↔
      ∃ r u, r ≠ [] ∧ subT t r = some u ∧ test u = true ∧
        q = p ++ r := by
  cases t with
  | node k nm cs =>
    obtain ⟨hor, hwcs⟩ := wfT_parts k nm cs hw
    rw [findDescT]
    by_cases hk : isParentKind k = true
    · rw [if_pos hk]
      rw [mem_findDescF test cs p 0 q hwcs]
      constructor
      · rintro ⟨j, r, u, h1, h2, h3⟩
        refine ⟨j :: r, u, by simp, ?_, h2, by simpa using h3⟩
        rw [subT_cons]
        exact h1
      · rintro ⟨r, u, hne, h2, h3, rfl⟩
        cases r with
        | nil => exact absurd rfl hne
        | cons j r2 =>
          refine ⟨j, r2, u, ?_, h3, by simp⟩
          rw [subT_cons] at h2
          exact h2
    · rw [if_neg hk]
      have hcs : cs = .nil := by
        simp only [Bool.or_eq_true] at hor
        rcases hor with h | h
        · exact absurd h hk
        · cases cs with
          | nil => rfl
          | cons d rest => simp [RForest.isNil] at h
      subst hcs
      simp only [List.not_mem_nil, false_iff]
      rintro ⟨r, u, hne, h2, h3, rfl⟩
      cases r with
      | nil => exact hne rfl
      | cons j r2 =>
        rw [subT_cons] at h2
        simp [subF, RForest.get?] at h2
theorem mem_findDescF (test : RTree → Bool) (f : RForest) (p : List Nat)
    (i : Nat) (q : List Nat) (hw : wfF f = true) :
    q ∈ findDescF test f p i ↔
      ∃ j r u, subF f j r = some u ∧ test u = true ∧
        q = p ++ (i + j) :: r := by
  cases f with
  | nil => simp [findDescF, subF, RForest.get?]
  | cons c rest =>
    obtain ⟨hwc, hwr⟩ := wfF_parts c rest hw
    rw [findDescF]
    simp only [List.mem_append]
    constructor
    · rintro ((h | h) | h)
      · rcases htc : test c with _ | _
        · rw [htc] at h
          simp at h
        · rw [htc] at h
          simp only [List.mem_singleton] at h
          refine ⟨0, [], c, rfl, htc, by simpa using h⟩
      · obtain ⟨r, u, hne, h2, h3, rfl⟩ :=
          (mem_findDescT test c (p ++ [i]) q hwc).mp h
        refine ⟨0, r, u, ?_, h3, ?_⟩
        · rw [subF_cons_zero]
          exact h2
        · simp
      · obtain ⟨j, r, u, h1, h2, h3⟩ :=
          (mem_findDescF test rest p (i + 1) q hwr).mp h
        refine ⟨j + 1, r, u, ?_, h2, ?_⟩
        · rw [subF_cons_succ]
          exact h1
        · rw [h3]
          have harith : i + 1 + j = i + (j + 1) := by omega
          rw [harith]
    · rintro ⟨j, r, u, h1, h2, rfl⟩
      cases j with
      | zero =>
        rw [subF_cons_zero] at h1
        cases r with
        | nil =>
          rw [subT] at h1
          cases h1
          left
          left
          rw [h2]
          simp
        | cons a r2 =>
          left
          right
          exact (mem_findDescT test c (p ++ [i]) _ hwc).mpr
            ⟨a :: r2, u, by simp, h1, h2, by simp⟩
      | succ j2 =>
        right
        refine (mem_findDescF test rest p (i + 1) _ hwr).mpr
          ⟨j2, r, u, ?_, h2, ?_⟩
        · rw [subF_cons_succ] at h1
          exact h1
        · have harith : i + 1 + j2 = i + (j2 + 1) := by omega
          rw [harith]
end

/-! ## Evaluator-step characterisations -/

theorem testAt_eq_true (t : RTree) (test : RTree → Bool)
    (q : List Nat) :
    testAt t test q = true ↔
      ∃ u, subT t q = some u ∧ test u = true := by
  unfold testAt
  cases hc : subT t q with
  | none => simp
  | some u => simp

theorem mem_dosStepResult (t : RTree) (hw : wfT t = true)
    (p : List Nat) : p ∈ dosStepResult t ↔ validP t p = true := by
  rw [dosStepResult, mem_dedupKeepFirst, mem_sortByPos, List.mem_cons]
  constructor
  · rintro (rfl | h)
    · rw [validP, subT]
      rfl
    · obtain ⟨r, u, hne, h2, h3, rfl⟩ :=
        (mem_findDescT _ t [] p hw).mp h
      simp [validP, h2]
  · intro h
    by_cases hp : p = []
    · exact Or.inl hp
    · refine Or.inr ((mem_findDescT _ t [] p hw).mpr ?_)
      rw [validP] at h
      obtain ⟨u, hu⟩ := Option.isSome_iff_exists.mp h
      exact ⟨p, u, hp, hu, rfl, (List.nil_append p).symm⟩

theorem mem_evalNoPredChildStep (test : RTree → Bool) (t : RTree)
    (hw : wfT t = true) (q : List Nat) :
    q ∈ evalNoPredChildStep test t ↔
      q ≠ [] ∧ testAt t test q = true := by
  rw [evalNoPredChildStep, mem_dedupKeepFirst, mem_sortByPos,
    List.mem_flatten]
  constructor
  · rintro ⟨part, hpart, hq⟩
    obtain ⟨p, hpS, hmatch⟩ := List.mem_filterMap.mp hpart
    split at hmatch
    · exact Option.noConfusion hmatch
    · rename_i u hu
      split at hmatch
      · split at hmatch
        · exact Option.noConfusion hmatch
        · have hpart2 : part = tlF test u.childrenOf p 0 := by
            injection hmatch with hh
            exact hh.symm
          subst hpart2
          obtain ⟨j, c, hc, htc, rfl⟩ :=
            (mem_tlF test u.childrenOf p 0 q).mp hq
          have hsub : subT t (p ++ [0 + j]) = some c := by
            rw [subT_append_single, hu]
            simpa using hc
          refine ⟨by simp, ?_⟩
          rw [testAt_eq_true]
          exact ⟨c, hsub, htc⟩
      · exact Option.noConfusion hmatch
  · rintro ⟨hne, hta⟩
    obtain ⟨c, hc, htc⟩ := (testAt_eq_true t test q).mp hta
    have hql : q.dropLast ++ [q.getLast hne] = q :=
      List.dropLast_append_getLast hne
    have hsub2 : subT t (q.dropLast ++ [q.getLast hne]) = some c := by
      rw [hql]
      exact hc
    rw [subT_append_single] at hsub2
    cases hu : subT t q.dropLast with
    | none =>
      rw [hu] at hsub2
      exact Option.noConfusion hsub2
    | some u =>
      rw [hu] at hsub2
      have hget : u.childrenOf.get? (q.getLast hne) = some c := hsub2
      have hwu : wfT u = true := wfT_subT t q.dropLast u hw hu
      have hk : isParentKind u.kindOf = true :=
        parentKind_of_child u _ c hwu hget
      have hmem : q ∈ tlF test u.childrenOf q.dropLast 0 :=
        (mem_tlF test u.childrenOf q.dropLast 0 q).mpr
          ⟨q.getLast hne, c, hget, htc, by rw [Nat.zero_add]; exact hql.symm⟩
      have hemp : (tlF test u.childrenOf q.dropLast 0).isEmpty = false := by
        cases he : (tlF test u.childrenOf q.dropLast 0).isEmpty with
        | false => rfl
        | true =>
          exfalso
          rw [List.isEmpty_iff.mp he] at hmem
          simp at hmem
      refine ⟨tlF test u.childrenOf q.dropLast 0, ?_, hmem⟩
      refine List.mem_filterMap.mpr ⟨q.dropLast, ?_, ?_⟩
      · refine (mem_dosStepResult t hw q.dropLast).mpr ?_
        rw [validP, hu]
        rfl
      · simp [hu, hk, hemp]

theorem mem_evalDescElemsQ (t : RTree) (hw : wfT t = true)
    (q : List Nat) :
    q ∈ evalDescElemsQ t ↔ q ≠ [] ∧ testAt t isElemT q = true := by
  rw [evalDescElemsQ, mem_dedupKeepFirst, mem_sortByPos,
    mem_findDescT isElemT t [] q hw]
  constructor
  · rintro ⟨r, u, hne, h2, h3, rfl⟩
    refine ⟨by simpa using hne, ?_⟩
    rw [testAt_eq_true]
    refine ⟨u, ?_, h3⟩
    simpa using h2
  · rintro ⟨hne, hta⟩
    obtain ⟨u, hu, htu⟩ := (testAt_eq_true t isElemT q).mp hta
    exact ⟨q, u, hne, hu, htu, (List.nil_append q).symm⟩

/-! ## Predicate and partition characterisations -/

theorem mem_predFirst (t : RTree) (parts : List (List (List Nat)))
    (q : List Nat) :
    q ∈ predFirst t parts ↔
      ∃ part ∈ parts, (sortByPos t part).head? = some q := by
  unfold predFirst
  simp only [mem_dedupKeepFirst, mem_sortByPos, List.mem_filterMap,
    head?_dedupKeepFirst]

theorem mem_childStep (test : RTree → Bool) (t : RTree)
    (inSet : List (List Nat)) (part : List (List Nat)) :
    part ∈ childStep test t inSet ↔
      ∃ p ∈ inSet, ∃ u, subT t p = some u ∧
        isParentKind u.kindOf = true ∧
        part = tlF test u.childrenOf p 0 ∧ part ≠ [] := by
  rw [childStep, List.mem_filterMap]
  constructor
  · rintro ⟨p, hp, hmatch⟩
    split at hmatch
    · exact Option.noConfusion hmatch
    · rename_i u hu
      split at hmatch
      · rename_i hk
        split at hmatch
        · exact Option.noConfusion hmatch
        · rename_i hemp
          injection hmatch with hh
          subst hh
          refine ⟨p, hp, u, hu, hk, rfl, ?_⟩
          intro h0
          exact hemp (by rw [h0]; rfl)
      · exact Option.noConfusion hmatch
  · rintro ⟨p, hp, u, hu, hk, rfl, hne⟩
    refine ⟨p, hp, ?_⟩
    have hemp : (tlF test u.childrenOf p 0).isEmpty = false := by
      cases he : (tlF test u.childrenOf p 0).isEmpty with
      | false => rfl
      | true => exact absurd (List.isEmpty_iff.mp he) hne
    simp [hu, hk, hemp]

theorem xChildrenPaths_of_subT (t : RTree) (test : RTree → Bool)
    (p : List Nat) (u : RTree) (hu : subT t p = some u) :
    xChildrenPaths t test p = tlF test u.childrenOf p 0 := by
  unfold xChildrenPaths
  rw [hu]

theorem valid_of_mem_tlF (t : RTree) (test : RTree → Bool)
    (p : List Nat) (u : RTree) (hu : subT t p = some u)
    (q : List Nat) (hq : q ∈ tlF test u.childrenOf p 0) :
    validP t q = true := by
  obtain ⟨j, c, hc, htc, rfl⟩ := (mem_tlF test u.childrenOf p 0 q).mp hq
  rw [validP, subT_append_single, hu]
  simp [hc]

theorem xChildren_posOf_inj (t : RTree) (test : RTree → Bool)
    (p : List Nat) (u : RTree) (hu : subT t p = some u) :
    ∀ a ∈ tlF test u.childrenOf p 0, ∀ b ∈ tlF test u.childrenOf p 0,
      posOf t a = posOf t b → a = b := by
  intro a ha b hb hab
  exact posOf_inj t a b (valid_of_mem_tlF t test p u hu a ha)
    (valid_of_mem_tlF t test p u hu b hb) hab

theorem valid_of_testAt (t : RTree) (test : RTree → Bool)
    (q : List Nat) (h : testAt t test q = true) : validP t q = true := by
  obtain ⟨u, hu, hv⟩ := (testAt_eq_true t test q).mp h
  rw [validP, hu]
  rfl

/-- C3 (amended): count(//*) equals count(/descendant::*) on every
well-formed document, with no additional +1 term: both queries select
exactly the non-root element nodes, each exactly once. -/
theorem c3_all_elements_eq_descendant_elements (t : RTree)
    (hw : wfT t = true) :
    (evalAllElemsQ t).length = (evalDescElemsQ t).length := by
  have h1 : ∀ q : List Nat,
      q ∈ evalAllElemsQ t ↔ q ≠ [] ∧ testAt t isElemT q = true :=
    fun q => mem_evalNoPredChildStep isElemT t hw q
  have h2 : ∀ q : List Nat,
      q ∈ evalDescElemsQ t ↔ q ≠ [] ∧ testAt t isElemT q = true :=
    fun q => mem_evalDescElemsQ t hw q
  have hn1 : (evalAllElemsQ t).Nodup := nodup_dedupKeepFirst _
  have hn2 : (evalDescElemsQ t).Nodup := nodup_dedupKeepFirst _
  rw [← List.toFinset_card_of_nodup hn1,
    ← List.toFinset_card_of_nodup hn2]
  congr 1
  ext q
  simp only [List.mem_toFinset]
  rw [h1 q, h2 q]

/-- C3 witness: the amended equality at the one-element document. -/
theorem c3_all_elements_witness :
    wfT treeC3 = true ∧
      (evalAllElemsQ treeC3).length = (evalDescElemsQ treeC3).length :=
  ⟨by decide, c3_all_elements_eq_descendant_elements treeC3 (by decide)⟩

/-- C1: predicate positioning over partitions.  //X[1] (expanded by
transformStepNode to /descendant-or-self::node()/X[1], transferring
the predicate to the child step) keeps, for every valid context node,
the first X-child in document order of that node - one node per
non-empty partition - while (//X)[1] flattens //X into a single
partition first and so keeps only the globally first X element; in
particular its result has at most one node. -/
theorem c1_predicate_positioning (t : RTree) (X : String)
    (hwf : wfT t = true) :
    (∀ q, q ∈ evalDslashXPred1 t X ↔
        ∃ p, validP t p = true ∧
          q ∈ xChildrenPaths t (elemNamedTest X) p ∧
          ∀ m ∈ xChildrenPaths t (elemNamedTest X) p,
            posOf t q ≤ posOf t m) ∧
    (∀ q, q ∈ evalParenDslashX1 t X ↔
        (q ≠ [] ∧ testAt t (elemNamedTest X) q = true ∧
          ∀ m, m ≠ [] → testAt t (elemNamedTest X) m = true →
            posOf t q ≤ posOf t m)) ∧
    (evalParenDslashX1 t X).length ≤ 1 := by
  refine ⟨?_, ?_, ?_⟩
  · intro q
    unfold evalDslashXPred1
    rw [mem_predFirst]
    constructor
    · rintro ⟨part, hpart, hhead⟩
      obtain ⟨p, hpS, u, hu, hk, rfl, hne⟩ :=
        (mem_childStep _ t _ part).mp hpart
      have hx : xChildrenPaths t (elemNamedTest X) p =
          tlF (elemNamedTest X) u.childrenOf p 0 :=
        xChildrenPaths_of_subT t _ p u hu
      obtain ⟨hqmem, hqmin⟩ :=
        (head?_sortByPos_iff t _ (xChildren_posOf_inj t _ p u hu) q).mp
          hhead
      refine ⟨p, (mem_dosStepResult t hwf p).mp hpS, ?_, ?_⟩
      · rw [hx]
        exact hqmem
      · intro m hm
        rw [hx] at hm
        exact hqmin m hm
    · rintro ⟨p, hpv, hqmem, hqmin⟩
      obtain ⟨u, hu⟩ :=
        Option.isSome_iff_exists.mp (by rwa [validP] at hpv)
      have hx : xChildrenPaths t (elemNamedTest X) p =
          tlF (elemNamedTest X) u.childrenOf p 0 :=
        xChildrenPaths_of_subT t _ p u hu
      rw [hx] at hqmem
      rw [hx] at hqmin
      obtain ⟨j, c, hc, htc, hqe⟩ :=
        (mem_tlF _ u.childrenOf p 0 q).mp hqmem
      have hwu : wfT u = true := wfT_subT t p u hwf hu
      have hk : isParentKind u.kindOf = true :=
        parentKind_of_child u _ c hwu hc
      have hne : tlF (elemNamedTest X) u.childrenOf p 0 ≠ [] := by
        intro h0
        rw [h0] at hqmem
        simp at hqmem
      refine ⟨tlF (elemNamedTest X) u.childrenOf p 0,
        (mem_childStep _ t _ _).mpr
          ⟨p, (mem_dosStepResult t hwf p).mpr hpv, u, hu, hk, rfl, hne⟩,
        ?_⟩
      exact (head?_sortByPos_iff t _ (xChildren_posOf_inj t _ p u hu)
        q).mpr ⟨hqmem, hqmin⟩
  · intro q
    unfold evalParenDslashX1
    rw [mem_predFirst]
    simp only [List.mem_singleton, exists_eq_left]
    have hinj : ∀ a ∈ evalNoPredChildStep (elemNamedTest X) t,
        ∀ b ∈ evalNoPredChildStep (elemNamedTest X) t,
          posOf t a = posOf t b → a = b := by
      intro a ha b hb hab
      refine posOf_inj t a b ?_ ?_ hab
      · exact valid_of_testAt t _ a
          ((mem_evalNoPredChildStep _ t hwf a).mp ha).2
      · exact valid_of_testAt t _ b
          ((mem_evalNoPredChildStep _ t hwf b).mp hb).2
    rw [head?_sortByPos_iff t _ hinj q]
    constructor
    · rintro ⟨hqS, hmin⟩
      obtain ⟨hne, hta⟩ := (mem_evalNoPredChildStep _ t hwf q).mp hqS
      refine ⟨hne, hta, ?_⟩
      intro m hmne hmta
      exact hmin m ((mem_evalNoPredChildStep _ t hwf m).mpr ⟨hmne, hmta⟩)
    · rintro ⟨hne, hta, hmin⟩
      refine ⟨(mem_evalNoPredChildStep _ t hwf q).mpr ⟨hne, hta⟩, ?_⟩
      intro m hmS
      obtain ⟨hmne, hmta⟩ := (mem_evalNoPredChildStep _ t hwf m).mp hmS
      exact hmin m hmne hmta
  · unfold evalParenDslashX1 predFirst
    refine le_trans (length_dedupSeen_le [] _) ?_
    rw [length_sortByPos]
    cases hf : (dedupKeepFirst (sortByPos t
        (evalNoPredChildStep (elemNamedTest X) t))).head? with
    | none => simp [List.filterMap_cons, hf]
    | some x => simp [List.filterMap_cons, hf]

/-- C1 witness: the theorem instantiated at a concrete document, in
particular (//X)[1] there holds at most one node. -/
theorem c1_predicate_positioning_witness :
    wfT treeC1W = true ∧
      (evalParenDslashX1 treeC1W "X").length ≤ 1 :=
  ⟨by decide, (c1_predicate_positioning treeC1W "X" (by decide)).2.2⟩
